import Mathlib

/-
  Verification development for the Search-Server repository
  (src/search_server.h, src/search_server.cpp, src/string_processing.h).

  Modelling conventions:
  * C++ `std::string` / `std::string_view` words are modelled as `List ℕ`
    (byte values 0..255).  The C++ control-character test
    `c >= '\0' && c < ' '` on a signed `char` holds exactly for byte
    values 0..31, which on `ℕ` is `c < 32`.  The space character is 32,
    the minus sign is 45.
  * `std::map` / `std::set` are modelled as strictly key-sorted
    association lists (`Mp`) and strictly sorted lists (`sinsert` /
    `serase`), so iteration order matches the C++ key order.
  * C++ `double` arithmetic is modelled exactly over `ℚ`; the external
    `std::log` has no rational counterpart, so query evaluation takes an
    arbitrary function `logQ : ℚ → ℚ` in its place and theorems quantify
    over it.
  * C++ exceptions are modelled with `Except` for `const` operations and,
    for the mutating `AddDocument`, with an explicit
    `SearchServer × Option SrvError` result so that the post-throw state
    (the C++ object after the exception escapes) stays observable.
  * Execution policies (`std::execution::seq` / `par`) select iteration
    strategy only; the embedding models the sequential semantics.
-/

/-- A word / text: list of byte values (C++ `std::string_view`). -/
abbrev Str : Type := List ℕ

/-- Modelled from the spec: `document.h` is absent from src; §3 gives the
closed status set ACTUAL, IRRELEVANT, BANNED, REMOVED. -/
inductive DocumentStatus : Type where
  | ACTUAL : DocumentStatus
  | IRRELEVANT : DocumentStatus
  | BANNED : DocumentStatus
  | REMOVED : DocumentStatus
deriving DecidableEq

/-- Modelled from the spec: `document.h` is absent from src; §1/§6 give the
document value type carrying (id, relevance, rating). -/
structure Document where
  id : ℤ
  relevance : ℚ
  rating : ℤ
deriving DecidableEq

/-- The two C++ exception kinds the engine throws:
`std::invalid_argument` (spec: InvalidInput) and
`std::out_of_range` (spec: DocumentNotFound). -/
inductive SrvError : Type where
  | invalidArgument : SrvError
  | outOfRange : SrvError
deriving DecidableEq

/-! ### Ordered maps and sets (std::map / std::set) -/

/-- `std::map κ ν`: association list kept strictly sorted by key. -/
abbrev Mp (κ ν : Type) : Type := List (κ × ν)

/-- `std::map::find` / `count` / `at`: lookup by key. -/
def mfind? {κ ν : Type} [LinearOrder κ] : Mp κ ν → κ → Option ν
  | [], _ => none
  | (k2, v2) :: rest, k => if k = k2 then some v2 else mfind? rest k

/-- `std::map::operator[] = v` / `insert_or_assign`: sorted insert-or-replace. -/
def mset {κ ν : Type} [LinearOrder κ] : Mp κ ν → κ → ν → Mp κ ν
  | [], k, v => [(k, v)]
  | (k2, v2) :: rest, k, v =>
    if k < k2 then (k, v) :: (k2, v2) :: rest
    else if k = k2 then (k, v) :: rest
    else (k2, v2) :: mset rest k v

/-- `std::map::erase(key)`. -/
def merase {κ ν : Type} [LinearOrder κ] : Mp κ ν → κ → Mp κ ν
  | [], _ => []
  | (k2, v2) :: rest, k => if k = k2 then rest else (k2, v2) :: merase rest k

/-- `m[k] += d` on a `std::map` with default-constructed `0.0` values. -/
def maddTo {κ : Type} [LinearOrder κ] (m : Mp κ ℚ) (k : κ) (d : ℚ) : Mp κ ℚ :=
  mset m k (((mfind? m k).getD 0) + d)

/-- Strict key-sortedness: the invariant every reachable `std::map` model has. -/
def mWF {κ ν : Type} [LinearOrder κ] (m : Mp κ ν) : Prop :=
  List.Pairwise (fun a b => a.1 < b.1) m

/-- `std::set::insert`: sorted insert without duplication. -/
def sinsert {κ : Type} [LinearOrder κ] : List κ → κ → List κ
  | [], k => [k]
  | k2 :: rest, k =>
    if k < k2 then k :: k2 :: rest
    else if k = k2 then k2 :: rest
    else k2 :: sinsert rest k

/-- `std::set::erase`. -/
def serase {κ : Type} [LinearOrder κ] : List κ → κ → List κ
  | [], _ => []
  | k2 :: rest, k => if k = k2 then rest else k2 :: serase rest k

/-- Strict sortedness of a `std::set` model. -/
def sWF {κ : Type} [LinearOrder κ] (s : List κ) : Prop :=
  List.Pairwise (fun a b => a < b) s

section MapLemmas

variable {κ ν : Type} [LinearOrder κ]

theorem mfind?_mset_self (m : Mp κ ν) (k : κ) (v : ν) :
    mfind? (mset m k v) k = some v := by
  induction m with
  | nil => simp [mset, mfind?]
  | cons hd tl ih =>
    obtain ⟨k2, v2⟩ := hd
    by_cases h1 : k < k2
    · simp [mset, h1, mfind?]
    · by_cases h2 : k = k2
      · simp [mset, h1, h2, mfind?]
      · simp [mset, h1, h2, mfind?, ih]

theorem mfind?_mset_ne (m : Mp κ ν) (k k3 : κ) (v : ν) (hne : k3 ≠ k) :
    mfind? (mset m k v) k3 = mfind? m k3 := by
  induction m with
  | nil => simp [mset, mfind?, hne]
  | cons hd tl ih =>
    obtain ⟨k2, v2⟩ := hd
    by_cases h1 : k < k2
    · simp [mset, h1, mfind?, hne]
    · by_cases h2 : k = k2
      · subst h2
        simp [mset, h1, mfind?, hne]
      · by_cases h3 : k3 = k2
        · simp [mset, h1, h2, mfind?, h3]
        · simp [mset, h1, h2, mfind?, h3, ih]

theorem mfind?_merase_ne (m : Mp κ ν) (k k3 : κ) (hne : k3 ≠ k) :
    mfind? (merase m k) k3 = mfind? m k3 := by
  induction m with
  | nil => simp [merase]
  | cons hd tl ih =>
    obtain ⟨k2, v2⟩ := hd
    by_cases h1 : k = k2
    · subst h1
      simp [merase, mfind?, hne]
    · by_cases h3 : k3 = k2
      · simp [merase, h1, mfind?, h3]
      · simp [merase, h1, mfind?, h3, ih]

theorem mfind?_eq_none_of_lt (m : Mp κ ν) (k : κ)
    (h : ∀ p ∈ m, k < p.1) : mfind? m k = none := by
  induction m with
  | nil => simp [mfind?]
  | cons hd tl ih =>
    have hk := h hd (by simp)
    have hne : k ≠ hd.1 := ne_of_lt hk
    simp [mfind?, hne]
    exact ih (fun p hp => h p (by simp [hp]))

theorem mem_mset_imp (m : Mp κ ν) (k : κ) (v : ν) (p : κ × ν)
    (hp : p ∈ mset m k v) : p.1 = k ∨ p ∈ m := by
  induction m with
  | nil =>
    rw [mset] at hp
    rcases List.mem_singleton.mp hp with h
    rw [h]
    exact Or.inl rfl
  | cons hd tl ih =>
    obtain ⟨k2, v2⟩ := hd
    rw [mset] at hp
    by_cases h1 : k < k2
    · rw [if_pos h1] at hp
      rcases List.mem_cons.mp hp with h | hp2
      · rw [h]; exact Or.inl rfl
      · exact Or.inr hp2
    · rw [if_neg h1] at hp
      by_cases h2 : k = k2
      · rw [if_pos h2] at hp
        rcases List.mem_cons.mp hp with h | hp2
        · rw [h]; exact Or.inl rfl
        · exact Or.inr (List.mem_cons_of_mem _ hp2)
      · rw [if_neg h2] at hp
        rcases List.mem_cons.mp hp with h | hp2
        · rw [h]; exact Or.inr (List.mem_cons_self _ _)
        · rcases ih hp2 with h | h
          · exact Or.inl h
          · exact Or.inr (List.mem_cons_of_mem _ h)

theorem mem_merase_imp (m : Mp κ ν) (k : κ) (p : κ × ν)
    (hp : p ∈ merase m k) : p ∈ m := by
  induction m with
  | nil => simp [merase] at hp
  | cons hd tl ih =>
    obtain ⟨k2, v2⟩ := hd
    rw [merase] at hp
    by_cases h1 : k = k2
    · rw [if_pos h1] at hp
      exact List.mem_cons_of_mem _ hp
    · rw [if_neg h1] at hp
      rcases List.mem_cons.mp hp with h | hp2
      · rw [h]; exact List.mem_cons_self _ _
      · exact List.mem_cons_of_mem _ (ih hp2)

theorem mfind?_merase_self (m : Mp κ ν) (k : κ) (hwf : mWF m) :
    mfind? (merase m k) k = none := by
  induction m with
  | nil => simp [merase, mfind?]
  | cons hd tl ih =>
    obtain ⟨k2, v2⟩ := hd
    rw [mWF, List.pairwise_cons] at hwf
    by_cases h1 : k = k2
    · subst h1
      simp only [merase, if_pos rfl]
      exact mfind?_eq_none_of_lt tl k (fun p hp => hwf.1 p hp)
    · simp [merase, h1, mfind?, ih hwf.2]

theorem mWF_mset (m : Mp κ ν) (k : κ) (v : ν) (hwf : mWF m) :
    mWF (mset m k v) := by
  induction m with
  | nil => simp [mset, mWF]
  | cons hd tl ih =>
    obtain ⟨k2, v2⟩ := hd
    rw [mWF, List.pairwise_cons] at hwf
    rw [mWF, mset]
    by_cases h1 : k < k2
    · rw [if_pos h1, List.pairwise_cons]
      refine ⟨?_, ?_⟩
      · intro p hp
        rcases List.mem_cons.mp hp with h | hp2
        · rw [h]; exact h1
        · exact lt_trans h1 (hwf.1 p hp2)
      · rw [List.pairwise_cons]
        exact hwf
    · rw [if_neg h1]
      by_cases h2 : k = k2
      · rw [if_pos h2, List.pairwise_cons]
        refine ⟨?_, hwf.2⟩
        intro p hp
        rw [h2]
        exact hwf.1 p hp
      · rw [if_neg h2, List.pairwise_cons]
        refine ⟨?_, ih hwf.2⟩
        intro p hp
        rcases mem_mset_imp tl k v p hp with h | h
        · rw [h]
          rcases lt_trichotomy k k2 with h3 | h3 | h3
          · exact absurd h3 h1
          · exact absurd h3 h2
          · exact h3
        · exact hwf.1 p h

theorem mWF_merase (m : Mp κ ν) (k : κ) (hwf : mWF m) :
    mWF (merase m k) := by
  induction m with
  | nil => simp [merase, mWF]
  | cons hd tl ih =>
    obtain ⟨k2, v2⟩ := hd
    rw [mWF, List.pairwise_cons] at hwf
    by_cases h1 : k = k2
    · simp [merase, h1, mWF, hwf.2]
    · rw [merase, if_neg h1, mWF, List.pairwise_cons]
      constructor
      · intro p hp
        exact hwf.1 p (mem_merase_imp tl k p hp)
      · exact ih hwf.2

end MapLemmas

/-! ### string_processing.h -/

/-- `SplitIntoWords` (string_processing): repeatedly take the segment up
to the next space (byte 32); a text without spaces yields one word, so the
empty text yields `[[]]`, and consecutive / leading / trailing spaces
yield empty words. -/
def SplitIntoWords : Str → List Str
  | [] => [[]]
  | c :: rest =>
    if c = 32 then [] :: SplitIntoWords rest
    else
      match SplitIntoWords rest with
      | w :: ws => (c :: w) :: ws
      | [] => [[c]]

/-- `MakeUniqueNonEmptyStrings`: insert every non-empty string into a
`std::set<std::string>`. -/
def MakeUniqueNonEmptyStrings (strings : List Str) : List Str :=
  strings.foldl (fun acc s => if s = [] then acc else sinsert acc s) []

/-! ### SearchServer state and operations -/

/-- `SearchServer::DocumentData`. -/
structure DocumentData where
  rating : ℤ
  status : DocumentStatus
  data : Str
  word_to_freqs : Mp Str ℚ
deriving DecidableEq

/-- The private state of a `SearchServer`. -/
structure SearchServer where
  stop_words : List Str
  word_to_document_freqs : Mp Str (Mp ℤ ℚ)
  documents : Mp ℤ DocumentData
  document_ids : List ℤ
deriving DecidableEq

/-- `SearchServer::IsValidWord`: no character with `c >= '\0' && c < ' '`
(on byte values: none below 32). -/
def IsValidWord (word : Str) : Bool :=
  word.all (fun c => ¬ c < 32)

/-- The template `SearchServer(stop_words)` constructor: deduplicates and
drops empty strings, then throws `invalid_argument` unless every stop word
is valid. -/
def mkSearchServer (stop_words : List Str) : Except SrvError SearchServer :=
  let sw := MakeUniqueNonEmptyStrings stop_words
  if sw.all IsValidWord then .ok ⟨sw, [], [], []⟩
  else .error .invalidArgument

/-- `SearchServer::IsStopWord`. -/
def IsStopWord (s : SearchServer) (word : Str) : Bool :=
  decide (word ∈ s.stop_words)

/-- The loop body of `SearchServer::SplitIntoWordsNoStop`: throw on an
invalid word, keep non-stop words. -/
def filterWordsNoStop (s : SearchServer) : List Str → Except SrvError (List Str)
  | [] => .ok []
  | w :: ws =>
    if IsValidWord w then
      match filterWordsNoStop s ws with
      | .error e => .error e
      | .ok rest => .ok (if IsStopWord s w then rest else w :: rest)
    else .error .invalidArgument

/-- `SearchServer::SplitIntoWordsNoStop`. -/
def SplitIntoWordsNoStop (s : SearchServer) (text : Str) : Except SrvError (List Str) :=
  filterWordsNoStop s (SplitIntoWords text)

/-- `SearchServer::ComputeAverageRating`: C++ `int` division truncates
toward zero (`Int.tdiv`). -/
def ComputeAverageRating (ratings : List ℤ) : ℤ :=
  if ratings.isEmpty then 0
  else Int.tdiv (ratings.foldl (fun a b => a + b) 0) (ratings.length : ℤ)

/-- `word_to_document_freqs_[word][document_id] += d`. -/
def idxAddTo (m : Mp Str (Mp ℤ ℚ)) (word : Str) (document_id : ℤ) (d : ℚ) :
    Mp Str (Mp ℤ ℚ) :=
  mset m word (maddTo ((mfind? m word).getD []) document_id d)

/-- `SearchServer::AddDocument`.  Returns the post-call state together
with the exception thrown, if any.  The C++ code `emplace`s into
`documents_` before `SplitIntoWordsNoStop(it->second.data)` runs, so a
word-validation throw escapes with the new (empty-frequency) document
entry already stored: that is the error branch below.  The split reads
the just-stored copy of `document` and only consults `stop_words_`, so
splitting against `s` is exact.  The single C++ loop updating
`word_to_document_freqs_` and the local `word_to_freqs` in lockstep is
rendered as two folds over the same word list; the two structures are
disjoint, so the decomposition is exact, and re-`mset`ting the final
`DocumentData` at `document_id` coincides with the C++ field assignment
`documents_[document_id].word_to_freqs = word_to_freqs`. -/
def AddDocument (s : SearchServer) (document_id : ℤ) (document : Str)
    (status : DocumentStatus) (ratings : List ℤ) : SearchServer × Option SrvError :=
  if document_id < 0 ∨ (mfind? s.documents document_id).isSome then
    (s, some .invalidArgument)
  else
    match SplitIntoWordsNoStop s document with
    | .error e =>
      ({ s with documents := mset s.documents document_id (DocumentData.mk
          (ComputeAverageRating ratings) status document []) }, some e)
    | .ok words =>
      ({ s with
          word_to_document_freqs := words.foldl
            (fun m w => idxAddTo m w document_id (1 / (words.length : ℚ)))
            s.word_to_document_freqs,
          documents := mset s.documents document_id (DocumentData.mk
            (ComputeAverageRating ratings) status document
            (words.foldl (fun m w => maddTo m w (1 / (words.length : ℚ))) [])),
          document_ids := sinsert s.document_ids document_id }, none)

/-- `word_to_document_freqs_[word].erase(document_id)`; `operator[]`
default-constructs an empty inner map when the word is absent. -/
def idxEraseFrom (m : Mp Str (Mp ℤ ℚ)) (word : Str) (document_id : ℤ) :
    Mp Str (Mp ℤ ℚ) :=
  mset m word (merase ((mfind? m word).getD []) document_id)

/-- `SearchServer::RemoveDocument` (both overloads; the policy only picks
the iteration strategy).  For each word of the document's own frequency
map, `word_to_document_freqs_[word].erase(document_id)`. -/
def RemoveDocument (s : SearchServer) (document_id : ℤ) : SearchServer :=
  match mfind? s.documents document_id with
  | none => s
  | some dd =>
    { s with
      word_to_document_freqs := dd.word_to_freqs.foldl
        (fun m p => idxEraseFrom m p.1 document_id)
        s.word_to_document_freqs,
      documents := merase s.documents document_id,
      document_ids := serase s.document_ids document_id }

/-- `SearchServer::GetDocumentCount` (`documents_.size()`). -/
def GetDocumentCount (s : SearchServer) : ℕ :=
  s.documents.length

/-- `SearchServer::GetWordFrequencies`: the stored map, or the static
empty map when the id is absent. -/
def GetWordFrequencies (s : SearchServer) (document_id : ℤ) : Mp Str ℚ :=
  match mfind? s.documents document_id with
  | some dd => dd.word_to_freqs
  | none => []

/-- `SearchServer::QueryWord`. -/
structure QueryWord where
  data : Str
  is_minus : Bool
  is_stop : Bool

/-- The `word.remove_prefix(1)` step of `ParseQueryWord`, applied exactly
when the word starts with a minus (byte 45): strip one leading minus. -/
def stripMinus (w : Str) : Str :=
  match w with
  | [] => []
  | c :: rest => if c = 45 then rest else c :: rest

/-- `SearchServer::ParseQueryWord`: reject the empty word; when
`word[0] == '-'` strip it (`stripMinus`) and set the minus flag; reject
if what remains is empty, starts with another minus, or is invalid. -/
def ParseQueryWord (s : SearchServer) (text : Str) : Except SrvError QueryWord :=
  match text with
  | [] => .error .invalidArgument
  | c :: rest =>
    if stripMinus (c :: rest) = [] ∨ (stripMinus (c :: rest)).head? = some 45 ∨
        ¬ IsValidWord (stripMinus (c :: rest)) then
      .error .invalidArgument
    else .ok ⟨stripMinus (c :: rest), decide (c = 45), IsStopWord s (stripMinus (c :: rest))⟩

/-- `SearchServer::Query`: two `std::set<std::string_view>`s. -/
structure Query where
  plus_words : List Str
  minus_words : List Str
deriving DecidableEq

/-- The loop body of `SearchServer::ParseQuery`. -/
def parseQueryLoop (s : SearchServer) : List Str → Query → Except SrvError Query
  | [], acc => .ok acc
  | w :: ws, acc =>
    match ParseQueryWord s w with
    | .error e => .error e
    | .ok qw =>
      if qw.is_stop then parseQueryLoop s ws acc
      else if qw.is_minus then
        parseQueryLoop s ws ⟨acc.plus_words, sinsert acc.minus_words qw.data⟩
      else
        parseQueryLoop s ws ⟨sinsert acc.plus_words qw.data, acc.minus_words⟩

/-- `SearchServer::ParseQuery`. -/
def ParseQuery (s : SearchServer) (text : Str) : Except SrvError Query :=
  parseQueryLoop s (SplitIntoWords text) ⟨[], []⟩

/-! ### Query evaluation -/

/-- `documents_.at(id)` in contexts where the id is known to be present
(every use site is guarded by the inverted index or the registry, whose
consistency is proved below); absent ids give the default-constructed
data the C++ `at` would never return. -/
def docDataAt (s : SearchServer) (document_id : ℤ) : DocumentData :=
  (mfind? s.documents document_id).getD ⟨0, .ACTUAL, [], []⟩

/-- `SearchServer::ComputeWordInverseDocumentFreq`:
`log(GetDocumentCount() * 1.0 / word_to_document_freqs_.at(word).size())`,
with the external `std::log` abstracted as `logQ`. -/
def ComputeWordInverseDocumentFreq (logQ : ℚ → ℚ) (s : SearchServer) (word : Str) : ℚ :=
  logQ ((GetDocumentCount s : ℚ) / (((mfind? s.word_to_document_freqs word).getD []).length : ℚ))

/-- Modelled from the spec: `concurrent_map.h` is absent from src.  §4.4:
the RelevanceAccumulator is a bucketed map from document id to score with
`AddToValue`, `Erase` and a materialization that merges the buckets into
an ordinary (id-ordered) map; bucketing affects locking only, so the
model is the id-sorted map itself. -/
abbrev ConcurrentMapQ : Type := Mp ℤ ℚ

/-- Modelled from the spec: `ConcurrentMap::operator[].ref_to_value += d`
(insert-or-increment). -/
def cmAddToValue (m : ConcurrentMapQ) (document_id : ℤ) (d : ℚ) : ConcurrentMapQ :=
  maddTo m document_id d

/-- Modelled from the spec: `ConcurrentMap::Erase`. -/
def cmErase (m : ConcurrentMapQ) (document_id : ℤ) : ConcurrentMapQ :=
  merase m document_id

/-- Modelled from the spec: `ConcurrentMap::BuildOrdinaryMap`. -/
def cmBuildOrdinaryMap (m : ConcurrentMapQ) : Mp ℤ ℚ :=
  m

/-- The plus-word pass of `SearchServer::FindAllDocuments`: skip words
absent from the index; otherwise accumulate `tf * idf` for every
document under the word that passes the predicate. -/
def plusWordStep (logQ : ℚ → ℚ) (s : SearchServer)
    (pred : ℤ → DocumentStatus → ℤ → Bool) (acc : ConcurrentMapQ) (word : Str) :
    ConcurrentMapQ :=
  match mfind? s.word_to_document_freqs word with
  | none => acc
  | some inner =>
    let inverse_document_freq := ComputeWordInverseDocumentFreq logQ s word
    inner.foldl (fun a p =>
      let dd := docDataAt s p.1
      if pred p.1 dd.status dd.rating then cmAddToValue a p.1 (p.2 * inverse_document_freq)
      else a) acc

/-- The minus-word pass of `SearchServer::FindAllDocuments`: skip words
absent from the index; otherwise erase every document under the word. -/
def minusWordStep (s : SearchServer) (acc : ConcurrentMapQ) (word : Str) :
    ConcurrentMapQ :=
  match mfind? s.word_to_document_freqs word with
  | none => acc
  | some inner => inner.foldl (fun a p => cmErase a p.1) acc

/-- `SearchServer::FindAllDocuments`. -/
def FindAllDocuments (logQ : ℚ → ℚ) (s : SearchServer) (query : Query)
    (pred : ℤ → DocumentStatus → ℤ → Bool) : List Document :=
  let acc1 := query.plus_words.foldl (plusWordStep logQ s pred) []
  let acc2 := query.minus_words.foldl (minusWordStep s) acc1
  (cmBuildOrdinaryMap acc2).map (fun p => ⟨p.1, p.2, (docDataAt s p.1).rating⟩)

/-- `MAX_RESULT_DOCUMENT_COUNT`. -/
def MAX_RESULT_DOCUMENT_COUNT : ℕ := 5

/-- The comparator passed to `std::sort` by `FindTopDocuments`. -/
def cmpDoc (lhs rhs : Document) : Prop :=
  (|lhs.relevance - rhs.relevance| < 1 / 1000000 ∧ rhs.rating < lhs.rating)
    ∨ rhs.relevance < lhs.relevance

instance cmpDoc.instDecidable : DecidableRel cmpDoc := by
  intro a b
  rw [cmpDoc]
  infer_instance

/-- The `std::sort` call of `FindTopDocuments`, modelled as an insertion
sort with the same comparator (`std::sort` does not specify an algorithm;
for comparator-respecting inputs any comparison sort yields a sequence
whose adjacent pairs are not inverted). -/
def sortDocs (l : List Document) : List Document :=
  List.insertionSort cmpDoc l

/-- `SearchServer::FindTopDocuments` (predicate overload, sequential
policy): parse, find, sort, truncate to `MAX_RESULT_DOCUMENT_COUNT`. -/
def FindTopDocuments (logQ : ℚ → ℚ) (s : SearchServer) (raw_query : Str)
    (pred : ℤ → DocumentStatus → ℤ → Bool) : Except SrvError (List Document) :=
  match ParseQuery s raw_query with
  | .error e => .error e
  | .ok query => .ok ((sortDocs (FindAllDocuments logQ s query pred)).take MAX_RESULT_DOCUMENT_COUNT)

/-- The status-filter overload of `FindTopDocuments`. -/
def FindTopDocumentsByStatus (logQ : ℚ → ℚ) (s : SearchServer) (raw_query : Str)
    (status : DocumentStatus) : Except SrvError (List Document) :=
  FindTopDocuments logQ s raw_query (fun _ document_status _ => document_status = status)

/-- The no-filter overload of `FindTopDocuments` (defaults to ACTUAL). -/
def FindTopDocumentsDefault (logQ : ℚ → ℚ) (s : SearchServer) (raw_query : Str) :
    Except SrvError (List Document) :=
  FindTopDocumentsByStatus logQ s raw_query .ACTUAL

/-- One plus-word step of `SearchServer::MatchDocument`:
`word_to_document_freqs_.at(word)` throws `std::out_of_range` when the
word is indexed nowhere; otherwise the word is appended when the document
is under it (the C++ pushes `it->first` found in the document's own
frequency map, which is this same word). -/
def matchPlusStep (s : SearchServer) (document_id : ℤ) (acc : List Str) (word : Str) :
    Except SrvError (List Str) :=
  match mfind? s.word_to_document_freqs word with
  | none => .error .outOfRange
  | some inner =>
    .ok (if (mfind? inner document_id).isSome then acc ++ [word] else acc)

/-- One minus-word step of `SearchServer::MatchDocument`: same `at`
behaviour; a hit clears the accumulated words. -/
def matchMinusStep (s : SearchServer) (document_id : ℤ) (acc : List Str) (word : Str) :
    Except SrvError (List Str) :=
  match mfind? s.word_to_document_freqs word with
  | none => .error .outOfRange
  | some inner =>
    .ok (if (mfind? inner document_id).isSome then [] else acc)

/-- `SearchServer::MatchDocument` (sequential policy): parse the query,
then throw `std::out_of_range` when the id is not registered, then run
the plus pass and the minus pass. -/
def MatchDocument (s : SearchServer) (raw_query : Str) (document_id : ℤ) :
    Except SrvError (List Str × DocumentStatus) :=
  match ParseQuery s raw_query with
  | .error e => .error e
  | .ok query =>
    if document_id ∈ s.document_ids then
      match query.plus_words.foldlM (matchPlusStep s document_id) [] with
      | .error e => .error e
      | .ok matched_words =>
        match query.minus_words.foldlM (matchMinusStep s document_id) matched_words with
        | .error e => .error e
        | .ok matched_words2 => .ok (matched_words2, (docDataAt s document_id).status)
    else .error .outOfRange

/-! ### Reachable engine states -/

/-- The states a `SearchServer` can be in: freshly constructed, or the
post-call state of any `AddDocument` (successful or throwing) or
`RemoveDocument`.  The `const` query operations do not mutate. -/
inductive Reach : SearchServer → Prop where
  | init : ∀ stop_words s, mkSearchServer stop_words = .ok s → Reach s
  | add : ∀ s document_id document status ratings, Reach s →
      Reach (AddDocument s document_id document status ratings).1
  | remove : ∀ s document_id, Reach s → Reach (RemoveDocument s document_id)

/-! ### Further map lemmas -/

theorem length_mset_new {κ ν : Type} [LinearOrder κ] (m : Mp κ ν) (k : κ) (v : ν)
    (h : mfind? m k = none) : (mset m k v).length = m.length + 1 := by
  induction m with
  | nil => simp [mset]
  | cons hd tl ih =>
    obtain ⟨k2, v2⟩ := hd
    rw [mfind?] at h
    by_cases h2 : k = k2
    · simp [h2] at h
    · rw [if_neg h2] at h
      rw [mset]
      by_cases h1 : k < k2
      · simp [h1]
      · simp [h1, h2, ih h]

/-- The success path of `AddDocument`, fully unfolded. -/
theorem AddDocument_ok_state (s : SearchServer) (document_id : ℤ) (document : Str)
    (status : DocumentStatus) (ratings : List ℤ) (words : List Str)
    (hneg : ¬(document_id < 0 ∨ (mfind? s.documents document_id).isSome))
    (hw : SplitIntoWordsNoStop s document = .ok words) :
    AddDocument s document_id document status ratings =
      ({ s with
          word_to_document_freqs := words.foldl
            (fun m w => idxAddTo m w document_id (1 / (words.length : ℚ)))
            s.word_to_document_freqs,
          documents := mset s.documents document_id (DocumentData.mk
            (ComputeAverageRating ratings) status document
            (words.foldl (fun m w => maddTo m w (1 / (words.length : ℚ))) [])),
          document_ids := sinsert s.document_ids document_id }, none) := by
  rw [AddDocument, if_neg hneg, hw]

/-- The word-validation failure path of `AddDocument`, fully unfolded. -/
theorem AddDocument_err_state (s : SearchServer) (document_id : ℤ) (document : Str)
    (status : DocumentStatus) (ratings : List ℤ) (e : SrvError)
    (hneg : ¬(document_id < 0 ∨ (mfind? s.documents document_id).isSome))
    (hw : SplitIntoWordsNoStop s document = .error e) :
    AddDocument s document_id document status ratings =
      ({ s with documents := mset s.documents document_id (DocumentData.mk
          (ComputeAverageRating ratings) status document []) }, some e) := by
  rw [AddDocument, if_neg hneg, hw]

/-! ### C7 — RemoveDocument is a total no-op on absent ids -/

/-- C7: `RemoveDocument(id)` never fails (it is a total function into
states), and when `id` is absent from the documents store it returns the
state unchanged: same documents, same inverted index, same registry. -/
theorem C7_remove_absent_noop (s : SearchServer) (document_id : ℤ)
    (h : mfind? s.documents document_id = none) :
    RemoveDocument s document_id = s ∧
    (RemoveDocument s document_id).documents = s.documents ∧
    (RemoveDocument s document_id).word_to_document_freqs = s.word_to_document_freqs ∧
    (RemoveDocument s document_id).document_ids = s.document_ids := by
  have hs : RemoveDocument s document_id = s := by rw [RemoveDocument, h]
  exact ⟨hs, by rw [hs], by rw [hs], by rw [hs]⟩

theorem C7_remove_absent_noop_witness :
    RemoveDocument (SearchServer.mk [] [] [] []) 7 = SearchServer.mk [] [] [] [] :=
  (C7_remove_absent_noop (SearchServer.mk [] [] [] []) 7 rfl).1

/-! ### C8 — stored rating is the truncated arithmetic mean -/

/-- Modelled from the spec: the arithmetic mean of the supplied ratings
truncated toward zero (the sign of the sum times the floor of the
absolute quotient), and 0 when no ratings are given. -/
def truncatedMeanSpec (ratings : List ℤ) : ℤ :=
  if ratings.isEmpty then 0
  else (ratings.foldl (fun a b => a + b) 0).sign *
    (((ratings.foldl (fun a b => a + b) 0).natAbs / ratings.length : ℕ) : ℤ)

theorem tdiv_eq_sign_natAbs (a : ℤ) (n : ℕ) :
    Int.tdiv a (n : ℤ) = a.sign * ((a.natAbs / n : ℕ) : ℤ) := by
  cases a with
  | ofNat m =>
    cases m with
    | zero => simp
    | succ m2 =>
      show Int.ofNat ((m2 + 1) / n) = 1 * Int.ofNat ((m2 + 1) / n)
      exact (one_mul _).symm
  | negSucc m =>
    show -Int.ofNat ((m + 1) / n) = -1 * Int.ofNat ((m + 1) / n)
    exact (neg_one_mul _).symm

theorem ComputeAverageRating_eq_truncatedMeanSpec (ratings : List ℤ) :
    ComputeAverageRating ratings = truncatedMeanSpec ratings := by
  rw [ComputeAverageRating, truncatedMeanSpec]
  by_cases h : ratings.isEmpty
  · simp [h]
  · rw [if_neg h, if_neg h]
    exact tdiv_eq_sign_natAbs _ _

/-- C8: every successful `AddDocument` stores as the document's rating
the arithmetic mean of the supplied ratings truncated toward zero (0 for
an empty ratings list); in particular ratings [1,2,3] give 2 and []
gives 0. -/
theorem C8_stored_rating_truncated_mean (s : SearchServer) (document_id : ℤ)
    (document : Str) (status : DocumentStatus) (ratings : List ℤ)
    (hok : (AddDocument s document_id document status ratings).2 = none) :
    (∃ dd, mfind? (AddDocument s document_id document status ratings).1.documents
        document_id = some dd ∧ dd.rating = truncatedMeanSpec ratings) ∧
    truncatedMeanSpec [1, 2, 3] = 2 ∧ truncatedMeanSpec [] = 0 := by
  refine ⟨?_, by decide, by decide⟩
  by_cases hneg : document_id < 0 ∨ (mfind? s.documents document_id).isSome
  · rw [AddDocument, if_pos hneg] at hok
    exact absurd hok (by simp)
  · cases hw : SplitIntoWordsNoStop s document with
    | error e =>
      rw [AddDocument_err_state s document_id document status ratings e hneg hw] at hok
      exact absurd hok (by simp)
    | ok words =>
      rw [AddDocument_ok_state s document_id document status ratings words hneg hw]
      refine ⟨_, mfind?_mset_self _ _ _, ?_⟩
      exact ComputeAverageRating_eq_truncatedMeanSpec ratings

theorem C8_stored_rating_truncated_mean_witness :
    (AddDocument (SearchServer.mk [] [] [] []) 0 [97] .ACTUAL [1, 2, 3]).2 = none ∧
    ((∃ dd, mfind? (AddDocument (SearchServer.mk [] [] [] []) 0 [97] .ACTUAL
        [1, 2, 3]).1.documents 0 = some dd ∧ dd.rating = truncatedMeanSpec [1, 2, 3]) ∧
      truncatedMeanSpec [1, 2, 3] = 2 ∧ truncatedMeanSpec [] = 0) :=
  ⟨rfl, C8_stored_rating_truncated_mean (SearchServer.mk [] [] [] []) 0 [97] .ACTUAL
    [1, 2, 3] rfl⟩

/-! ### C9 — term frequencies of a document sum to 1 -/

/-- The sum of the values of a frequency map. -/
def msumValues {κ : Type} (m : Mp κ ℚ) : ℚ :=
  (m.map (fun p => p.2)).sum

theorem mWF_maddTo {κ : Type} [LinearOrder κ] (m : Mp κ ℚ) (k : κ) (d : ℚ)
    (hwf : mWF m) : mWF (maddTo m k d) := by
  rw [maddTo]
  exact mWF_mset m k _ hwf

theorem msumValues_maddTo {κ : Type} [LinearOrder κ] (m : Mp κ ℚ) (k : κ) (d : ℚ)
    (hwf : mWF m) : msumValues (maddTo m k d) = msumValues m + d := by
  induction m with
  | nil => simp [maddTo, mset, mfind?, msumValues]
  | cons hd tl ih =>
    obtain ⟨k2, v2⟩ := hd
    rw [mWF, List.pairwise_cons] at hwf
    rcases lt_trichotomy k k2 with h1 | h1 | h1
    · have hne : k ≠ k2 := ne_of_lt h1
      have hnone : mfind? tl k = none :=
        mfind?_eq_none_of_lt tl k (fun p hp => lt_trans h1 (hwf.1 p hp))
      rw [maddTo, mfind?, if_neg hne, hnone, mset, if_pos h1]
      simp [msumValues]
      ring
    · subst h1
      rw [maddTo, mfind?, if_pos rfl, mset, if_neg (lt_irrefl k), if_pos rfl]
      simp [msumValues]
      ring
    · have hne : k ≠ k2 := ne_of_gt h1
      have hnlt : ¬ k < k2 := not_lt_of_gt h1
      rw [maddTo, mfind?, if_neg hne, mset, if_neg hnlt, if_neg hne]
      have hrec : msumValues (mset tl k (((mfind? tl k).getD 0) + d)) =
          msumValues tl + d := by
        rw [← maddTo]
        exact ih hwf.2
      simp only [msumValues, List.map_cons, List.sum_cons] at hrec ⊢
      rw [hrec]
      ring

theorem msumValues_foldl_maddTo {κ : Type} [LinearOrder κ] (ws : List κ) (d : ℚ)
    (m0 : Mp κ ℚ) (hwf : mWF m0) :
    msumValues (ws.foldl (fun m w => maddTo m w d) m0) =
      msumValues m0 + ws.length * d := by
  induction ws generalizing m0 with
  | nil => simp
  | cons w ws ih =>
    rw [List.foldl_cons, ih (maddTo m0 w d) (mWF_maddTo m0 w d hwf),
      msumValues_maddTo m0 w d hwf, List.length_cons]
    push_cast
    ring

/-- C9: for every successfully added document whose text has at least one
non-stop word, the stored per-word term frequencies sum to 1 within
1e-9 (here: exactly 1, since doubles are modelled exactly over ℚ). -/
theorem C9_tf_sum_one (s : SearchServer) (document_id : ℤ) (document : Str)
    (status : DocumentStatus) (ratings : List ℤ) (words : List Str)
    (hneg : ¬(document_id < 0 ∨ (mfind? s.documents document_id).isSome))
    (hw : SplitIntoWordsNoStop s document = .ok words) (hwords : words ≠ []) :
    |msumValues (GetWordFrequencies
        (AddDocument s document_id document status ratings).1 document_id) - 1|
      ≤ 1 / 1000000000 := by
  rw [AddDocument_ok_state s document_id document status ratings words hneg hw]
  have hfind : mfind? (mset s.documents document_id (DocumentData.mk
      (ComputeAverageRating ratings) status document
      (words.foldl (fun m w => maddTo m w (1 / (words.length : ℚ))) [])))
      document_id = some (DocumentData.mk
      (ComputeAverageRating ratings) status document
      (words.foldl (fun m w => maddTo m w (1 / (words.length : ℚ))) [])) :=
    mfind?_mset_self _ _ _
  simp only [GetWordFrequencies, hfind]
  have hsum : msumValues (words.foldl
      (fun m w => maddTo m w (1 / (words.length : ℚ))) []) = 1 := by
    rw [msumValues_foldl_maddTo words (1 / (words.length : ℚ)) [] (by simp [mWF])]
    have hlen : ((words.length : ℚ)) ≠ 0 := by
      simp [List.length_eq_zero]
      exact hwords
    simp [msumValues]
    field_simp
  rw [hsum]
  norm_num

theorem C9_tf_sum_one_witness :
    ¬((0 : ℤ) < 0 ∨ (mfind? (SearchServer.mk [] [] [] []).documents 0).isSome) ∧
    SplitIntoWordsNoStop (SearchServer.mk [] [] [] []) [97, 32, 98] =
      .ok [[97], [98]] ∧
    |msumValues (GetWordFrequencies
        (AddDocument (SearchServer.mk [] [] [] []) 0 [97, 32, 98] .ACTUAL []).1 0) - 1|
      ≤ 1 / 1000000000 :=
  ⟨by decide, rfl,
    C9_tf_sum_one (SearchServer.mk [] [] [] []) 0 [97, 32, 98] .ACTUAL []
      [[97], [98]] (by decide) rfl (by decide)⟩

/-! ### C6 — query-word validation, silent stop-word dropping, dedup -/

/-- The claim's description of a rejected query word: after stripping one
leading minus the word is empty, starts with another minus, or fails word
validation (contains a control character).  An originally empty word is
covered because stripping keeps it empty. -/
def badQueryWord (w : Str) : Prop :=
  stripMinus w = [] ∨ (stripMinus w).head? = some 45 ∨ ¬ IsValidWord (stripMinus w)

instance badQueryWord.instDecidable : DecidablePred badQueryWord := by
  intro w
  unfold badQueryWord
  infer_instance

theorem ParseQueryWord_error_iff (s : SearchServer) (w : Str) :
    ParseQueryWord s w = .error .invalidArgument ↔ badQueryWord w := by
  cases w with
  | nil => simp [ParseQueryWord, badQueryWord, stripMinus]
  | cons c rest =>
    rw [ParseQueryWord, badQueryWord]
    by_cases hcond : stripMinus (c :: rest) = [] ∨
        (stripMinus (c :: rest)).head? = some 45 ∨
        ¬ IsValidWord (stripMinus (c :: rest))
    · rw [if_pos hcond]
      exact ⟨fun _ => hcond, fun _ => rfl⟩
    · rw [if_neg hcond]
      constructor
      · intro h
        exact absurd h (by simp)
      · intro h
        exact absurd h hcond

theorem ParseQueryWord_error_kind (s : SearchServer) (w : Str) (e : SrvError)
    (h : ParseQueryWord s w = .error e) : e = .invalidArgument := by
  cases w with
  | nil =>
    rw [ParseQueryWord] at h
    exact (Except.error.inj h).symm
  | cons c rest =>
    rw [ParseQueryWord] at h
    by_cases hcond : stripMinus (c :: rest) = [] ∨
        (stripMinus (c :: rest)).head? = some 45 ∨
        ¬ IsValidWord (stripMinus (c :: rest))
    · rw [if_pos hcond] at h
      exact (Except.error.inj h).symm
    · rw [if_neg hcond] at h
      cases h

theorem ParseQueryWord_ok_fields (s : SearchServer) (w : Str) (qw : QueryWord)
    (h : ParseQueryWord s w = .ok qw) :
    qw.is_stop = IsStopWord s qw.data ∧ ¬ badQueryWord w := by
  cases w with
  | nil =>
    rw [ParseQueryWord] at h
    cases h
  | cons c rest =>
    rw [ParseQueryWord] at h
    by_cases hcond : stripMinus (c :: rest) = [] ∨
        (stripMinus (c :: rest)).head? = some 45 ∨
        ¬ IsValidWord (stripMinus (c :: rest))
    · rw [if_pos hcond] at h
      cases h
    · rw [if_neg hcond] at h
      have := Except.ok.inj h
      constructor
      · rw [← this]
      · rw [badQueryWord]
        exact hcond

theorem mem_sinsert_imp {κ : Type} [LinearOrder κ] (l : List κ) (k x : κ)
    (hx : x ∈ sinsert l k) : x = k ∨ x ∈ l := by
  induction l with
  | nil =>
    rw [sinsert] at hx
    exact Or.inl (List.mem_singleton.mp hx)
  | cons k2 tl ih =>
    rw [sinsert] at hx
    by_cases h1 : k < k2
    · rw [if_pos h1] at hx
      rcases List.mem_cons.mp hx with h | h
      · exact Or.inl h
      · exact Or.inr h
    · rw [if_neg h1] at hx
      by_cases h2 : k = k2
      · rw [if_pos h2] at hx
        exact Or.inr hx
      · rw [if_neg h2] at hx
        rcases List.mem_cons.mp hx with h | h
        · exact Or.inr (by rw [h]; exact List.mem_cons_self _ _)
        · rcases ih h with h3 | h3
          · exact Or.inl h3
          · exact Or.inr (List.mem_cons_of_mem _ h3)

theorem sWF_sinsert {κ : Type} [LinearOrder κ] (l : List κ) (k : κ)
    (hwf : sWF l) : sWF (sinsert l k) := by
  induction l with
  | nil => simp [sinsert, sWF]
  | cons k2 tl ih =>
    rw [sWF, List.pairwise_cons] at hwf
    rw [sinsert]
    by_cases h1 : k < k2
    · rw [if_pos h1, sWF, List.pairwise_cons]
      refine ⟨?_, ?_⟩
      · intro x hx
        rcases List.mem_cons.mp hx with h | h
        · rw [h]; exact h1
        · exact lt_trans h1 (hwf.1 x h)
      · rw [List.pairwise_cons]
        exact hwf
    · rw [if_neg h1]
      by_cases h2 : k = k2
      · rw [if_pos h2, sWF, List.pairwise_cons]
        exact hwf
      · rw [if_neg h2, sWF, List.pairwise_cons]
        refine ⟨?_, ih hwf.2⟩
        intro x hx
        rcases mem_sinsert_imp tl k x hx with h | h
        · rw [h]
          rcases lt_trichotomy k k2 with h3 | h3 | h3
          · exact absurd h3 h1
          · exact absurd h3 h2
          · exact h3
        · exact hwf.1 x h

/-- The invariant `parseQueryLoop` maintains on its accumulator: neither
set contains a stop word and both are strictly sorted (hence
duplicate-free). -/
def queryInv (s : SearchServer) (q : Query) : Prop :=
  (∀ w ∈ q.plus_words, IsStopWord s w = false) ∧
  (∀ w ∈ q.minus_words, IsStopWord s w = false) ∧
  sWF q.plus_words ∧ sWF q.minus_words

theorem parseQueryLoop_inv (s : SearchServer) (ws : List Str) (acc q : Query)
    (hacc : queryInv s acc) (h : parseQueryLoop s ws acc = .ok q) :
    queryInv s q := by
  induction ws generalizing acc with
  | nil =>
    rw [parseQueryLoop] at h
    rw [← Except.ok.inj h]
    exact hacc
  | cons w ws ih =>
    cases hpw : ParseQueryWord s w with
    | error e =>
      simp only [parseQueryLoop, hpw] at h
      exact absurd h (by simp)
    | ok qw =>
      simp only [parseQueryLoop, hpw] at h
      have hfields := ParseQueryWord_ok_fields s w qw hpw
      by_cases hstop : qw.is_stop
      · rw [if_pos hstop] at h
        exact ih acc hacc h
      · rw [if_neg hstop] at h
        have hnotstop : IsStopWord s qw.data = false := by
          rw [← hfields.1]
          simpa using hstop
        by_cases hminus : qw.is_minus
        · rw [if_pos hminus] at h
          refine ih ⟨acc.plus_words, sinsert acc.minus_words qw.data⟩ ?_ h
          refine ⟨hacc.1, ?_, hacc.2.2.1, sWF_sinsert _ _ hacc.2.2.2⟩
          intro x hx
          rcases mem_sinsert_imp _ _ _ hx with h2 | h2
          · rw [h2]; exact hnotstop
          · exact hacc.2.1 x h2
        · rw [if_neg hminus] at h
          refine ih ⟨sinsert acc.plus_words qw.data, acc.minus_words⟩ ?_ h
          refine ⟨?_, hacc.2.1, sWF_sinsert _ _ hacc.2.2.1, hacc.2.2.2⟩
          intro x hx
          rcases mem_sinsert_imp _ _ _ hx with h2 | h2
          · rw [h2]; exact hnotstop
          · exact hacc.1 x h2

theorem parseQueryLoop_error_of_bad (s : SearchServer) (ws : List Str) (acc : Query)
    (h : ∃ w ∈ ws, badQueryWord w) :
    parseQueryLoop s ws acc = .error .invalidArgument := by
  induction ws generalizing acc with
  | nil => simp at h
  | cons w ws ih =>
    cases hpw : ParseQueryWord s w with
    | error e =>
      have he := ParseQueryWord_error_kind s w e hpw
      simp only [parseQueryLoop, hpw, he]
    | ok qw =>
      obtain ⟨w2, hmem, hbad⟩ := h
      simp only [parseQueryLoop, hpw]
      rcases List.mem_cons.mp hmem with h1 | h1
      · rw [← h1] at hpw
        exact absurd hbad (ParseQueryWord_ok_fields s w2 qw hpw).2
      · by_cases hstop : qw.is_stop
        · rw [if_pos hstop]
          exact ih acc ⟨w2, h1, hbad⟩
        · rw [if_neg hstop]
          by_cases hminus : qw.is_minus
          · rw [if_pos hminus]
            exact ih _ ⟨w2, h1, hbad⟩
          · rw [if_neg hminus]
            exact ih _ ⟨w2, h1, hbad⟩

/-- C6: a query containing any word that (after stripping one leading
minus) is empty, starts with another minus, or contains a control
character makes `ParseQuery` — and with it `FindTopDocuments` and
`MatchDocument` — fail with `invalid_argument` (so bare minus, double
minus and the empty term all fail); and a successful parse yields plus
and minus sets that contain no stop word and are duplicate-free. -/
theorem C6_parse_query_validation (s : SearchServer) (text : Str) :
    ((∃ w ∈ SplitIntoWords text, badQueryWord w) →
      ParseQuery s text = .error .invalidArgument ∧
      (∀ logQ pred, FindTopDocuments logQ s text pred = .error .invalidArgument) ∧
      (∀ document_id, MatchDocument s text document_id = .error .invalidArgument)) ∧
    badQueryWord [45] ∧ badQueryWord [45, 45] ∧ badQueryWord [] ∧
    (∀ q, ParseQuery s text = .ok q →
      (∀ w ∈ q.plus_words, IsStopWord s w = false) ∧
      (∀ w ∈ q.minus_words, IsStopWord s w = false) ∧
      q.plus_words.Nodup ∧ q.minus_words.Nodup) := by
  refine ⟨?_, by decide, by decide, by decide, ?_⟩
  · intro hbad
    have hparse : ParseQuery s text = .error .invalidArgument :=
      parseQueryLoop_error_of_bad s (SplitIntoWords text) ⟨[], []⟩ hbad
    refine ⟨hparse, ?_, ?_⟩
    · intro logQ pred
      rw [FindTopDocuments, hparse]
    · intro document_id
      rw [MatchDocument, hparse]
  · intro q hq
    have hinv := parseQueryLoop_inv s (SplitIntoWords text) ⟨[], []⟩ q
      (by exact ⟨by simp, by simp, by simp [sWF], by simp [sWF]⟩) hq
    refine ⟨hinv.1, hinv.2.1, ?_, ?_⟩
    · exact hinv.2.2.1.imp (fun h => ne_of_lt h)
    · exact hinv.2.2.2.imp (fun h => ne_of_lt h)

theorem C6_parse_query_validation_witness :
    ParseQuery (SearchServer.mk [] [] [] []) [45, 45, 97] = .error .invalidArgument :=
  (((C6_parse_query_validation (SearchServer.mk [] [] [] []) [45, 45, 97]).1
    ⟨[45, 45, 97], by decide, by decide⟩).1)

/-! ### C10 — empty tokens: indexed in documents, fatal in queries -/

theorem SplitIntoWords_ne_nil (t : Str) : SplitIntoWords t ≠ [] := by
  cases t with
  | nil => simp [SplitIntoWords]
  | cons c rest =>
    rw [SplitIntoWords]
    by_cases hc : c = 32
    · simp [hc]
    · rw [if_neg hc]
      cases SplitIntoWords rest with
      | nil => simp
      | cons w ws => simp

theorem SplitIntoWords_append (a b : Str) :
    SplitIntoWords (a ++ 32 :: b) = SplitIntoWords a ++ SplitIntoWords b := by
  induction a with
  | nil => simp [SplitIntoWords]
  | cons c a2 ih =>
    by_cases hc : c = 32
    · subst hc
      rw [List.cons_append, SplitIntoWords, if_pos rfl, ih]
      rw [SplitIntoWords, if_pos rfl]
      simp
    · rw [List.cons_append, SplitIntoWords, if_neg hc, ih]
      rw [SplitIntoWords, if_neg hc]
      cases hsa : SplitIntoWords a2 with
      | nil => exact absurd hsa (SplitIntoWords_ne_nil a2)
      | cons w ws => simp

theorem foldl_sinsert_ne_nil (l : List Str) : ∀ acc : List Str,
    (∀ x ∈ acc, x ≠ []) →
    ∀ x ∈ l.foldl (fun acc s => if s = [] then acc else sinsert acc s) acc, x ≠ [] := by
  induction l with
  | nil =>
    intro acc hacc x hx
    exact hacc x hx
  | cons s l2 ih =>
    intro acc hacc x hx
    rw [List.foldl_cons] at hx
    by_cases hs : s = []
    · rw [if_pos hs] at hx
      exact ih acc hacc x hx
    · rw [if_neg hs] at hx
      refine ih (sinsert acc s) ?_ x hx
      intro y hy
      rcases mem_sinsert_imp acc s y hy with h2 | h2
      · rw [h2]; exact hs
      · exact hacc y h2

theorem mem_MakeUniqueNonEmptyStrings_ne_nil (l : List Str) (w : Str)
    (hw : w ∈ MakeUniqueNonEmptyStrings l) : w ≠ [] := by
  rw [MakeUniqueNonEmptyStrings] at hw
  exact foldl_sinsert_ne_nil l [] (by simp) w hw

/-- C10: the tokenizer splits on single spaces only and produces empty
tokens — `SplitIntoWords` of the empty text is `[[]]`, a space always
splits into two independently tokenized halves, and two consecutive
spaces always yield an empty token; the empty token is a valid word and
is never a stop word (stop-word construction discards empty strings), so
`AddDocument` on the text "a␣␣b" succeeds and stores the empty string as
an indexed word with term frequency 1/3 (counted in the word total of 3),
while the same text used as a query makes `FindTopDocuments` and
`MatchDocument` fail with `invalid_argument`. -/
theorem C10_empty_tokens :
    SplitIntoWords ([] : Str) = [[]] ∧
    (∀ a b : Str, SplitIntoWords (a ++ 32 :: b) = SplitIntoWords a ++ SplitIntoWords b) ∧
    (∀ a b : Str, [] ∈ SplitIntoWords (a ++ 32 :: 32 :: b)) ∧
    IsValidWord [] = true ∧
    (∀ stops s, mkSearchServer stops = .ok s → IsStopWord s [] = false) ∧
    (AddDocument (SearchServer.mk [] [] [] []) 0 [97, 32, 32, 98] .ACTUAL []).2 = none ∧
    mfind? (GetWordFrequencies
      (AddDocument (SearchServer.mk [] [] [] []) 0 [97, 32, 32, 98] .ACTUAL []).1 0) []
      = some (1 / 3) ∧ (0 : ℚ) < 1 / 3 ∧
    (∀ logQ pred, FindTopDocuments logQ
      (AddDocument (SearchServer.mk [] [] [] []) 0 [97, 32, 32, 98] .ACTUAL []).1
      [97, 32, 32, 98] pred = .error .invalidArgument) ∧
    MatchDocument (AddDocument (SearchServer.mk [] [] [] []) 0 [97, 32, 32, 98] .ACTUAL []).1
      [97, 32, 32, 98] 0 = .error .invalidArgument := by
  have hbadq : ∃ w ∈ SplitIntoWords ([97, 32, 32, 98] : Str), badQueryWord w := by
    refine ⟨[], ?_, by decide⟩
    have h1 : SplitIntoWords ([97, 32, 32, 98] : Str) = [[97], [], [98]] := rfl
    rw [h1]
    simp
  have hparse : ∀ sx : SearchServer, ParseQuery sx [97, 32, 32, 98] = .error .invalidArgument :=
    fun sx => parseQueryLoop_error_of_bad sx _ _ hbadq
  refine ⟨rfl, SplitIntoWords_append, ?_, rfl, ?_, rfl, ?_, by norm_num, ?_, ?_⟩
  · intro a b
    have h2 : (a ++ 32 :: 32 :: b : Str) = a ++ 32 :: (32 :: b) := rfl
    have h3 : SplitIntoWords (32 :: b) = [] :: SplitIntoWords b := by
      rw [SplitIntoWords, if_pos rfl]
    rw [h2, SplitIntoWords_append, h3]
    simp
  · intro stops s hs
    rw [mkSearchServer] at hs
    by_cases hv : (MakeUniqueNonEmptyStrings stops).all IsValidWord
    · rw [if_pos hv] at hs
      have hss : s.stop_words = MakeUniqueNonEmptyStrings stops := by
        rw [← Except.ok.inj hs]
      rw [IsStopWord, hss]
      by_cases hmem : ([] : Str) ∈ MakeUniqueNonEmptyStrings stops
      · exact absurd rfl (mem_MakeUniqueNonEmptyStrings_ne_nil stops [] hmem)
      · simp [hmem]
    · rw [if_neg hv] at hs
      cases hs
  · have hok : SplitIntoWordsNoStop (SearchServer.mk [] [] [] []) [97, 32, 32, 98]
        = .ok [[97], [], [98]] := rfl
    rw [AddDocument_ok_state (SearchServer.mk [] [] [] []) 0 [97, 32, 32, 98] .ACTUAL []
      [[97], [], [98]] (by decide) hok]
    norm_num [GetWordFrequencies, mfind?, mset, maddTo, List.foldl]
  · intro logQ pred
    rw [FindTopDocuments, hparse]
  · rw [MatchDocument, hparse]

theorem C10_empty_tokens_witness :
    IsStopWord (SearchServer.mk [] [] [] []) [] = false :=
  C10_empty_tokens.2.2.2.2.1 [] (SearchServer.mk [] [] [] []) rfl

/-! ### C1 — AddDocument failures and the partially-mutated state -/

theorem filterWordsNoStop_error_kind (s : SearchServer) (ws : List Str) :
    ∀ e : SrvError, filterWordsNoStop s ws = .error e → e = .invalidArgument := by
  induction ws with
  | nil =>
    intro e h
    simp [filterWordsNoStop] at h
  | cons w ws ih =>
    intro e h
    by_cases hv : IsValidWord w
    · cases hrec : filterWordsNoStop s ws with
      | error e2 =>
        simp [filterWordsNoStop, hv, hrec] at h
        subst h
        exact ih _ hrec
      | ok rest =>
        simp [filterWordsNoStop, hv, hrec] at h
    · simp [filterWordsNoStop, hv] at h
      first
      | exact h
      | exact h.symm

theorem filterWordsNoStop_error_iff (s : SearchServer) (ws : List Str) :
    filterWordsNoStop s ws = .error .invalidArgument ↔
      ∃ w ∈ ws, IsValidWord w = false := by
  induction ws with
  | nil => simp [filterWordsNoStop]
  | cons w ws ih =>
    by_cases hv : IsValidWord w
    · cases hrec : filterWordsNoStop s ws with
      | error e2 =>
        have he2 := filterWordsNoStop_error_kind s ws e2 hrec
        subst he2
        constructor
        · intro _
          obtain ⟨w2, hmem, hw2⟩ := ih.mp hrec
          exact ⟨w2, List.mem_cons_of_mem _ hmem, hw2⟩
        · intro _
          simp [filterWordsNoStop, hv, hrec]
      | ok rest =>
        constructor
        · intro h
          simp [filterWordsNoStop, hv, hrec] at h
        · intro hex
          obtain ⟨w2, hmem, hw2⟩ := hex
          rcases List.mem_cons.mp hmem with h1 | h1
          · rw [← h1] at hv
            rw [hv] at hw2
            exact absurd hw2 (by simp)
          · have hih := ih.mpr ⟨w2, h1, hw2⟩
            rw [hrec] at hih
            exact absurd hih (by simp)
    · constructor
      · intro _
        refine ⟨w, List.mem_cons_self _ _, ?_⟩
        revert hv
        cases IsValidWord w <;> simp
      · intro _
        simp [filterWordsNoStop, hv]

/-- C1 counterexample: the claim "on every failing call the engine state
is completely unchanged and GetDocumentCount() is the same" is false: an
`AddDocument` call on a fresh engine that fails with `invalid_argument`
because of a control character (byte 1) in a word leaves the document
count at 1 instead of 0. -/
theorem C1_partial_mutation_on_failure :
    (AddDocument (SearchServer.mk [] [] [] []) 0 [97, 1] .ACTUAL []).2
      = some .invalidArgument ∧
    GetDocumentCount (SearchServer.mk [] [] [] []) = 0 ∧
    ¬ GetDocumentCount (AddDocument (SearchServer.mk [] [] [] []) 0 [97, 1] .ACTUAL []).1
      = GetDocumentCount (SearchServer.mk [] [] [] []) :=
  ⟨rfl, rfl, by decide⟩

/-- C1 (amended): `AddDocument` fails with `invalid_argument` when the id
is negative, the id is already present, or the text contains a word with
a control character, and only then.  On a negative or duplicate id the
engine state is completely unchanged; on a word-validation failure,
however, the new document entry (with empty frequencies) has already been
stored, so the documents store gains one entry and `GetDocumentCount()`
grows by one, while the inverted index and the registry are unchanged. -/
theorem C1_add_document_failure (s : SearchServer) (document_id : ℤ) (document : Str)
    (status : DocumentStatus) (ratings : List ℤ) :
    ((document_id < 0 ∨ (mfind? s.documents document_id).isSome) →
      AddDocument s document_id document status ratings = (s, some .invalidArgument)) ∧
    (¬(document_id < 0 ∨ (mfind? s.documents document_id).isSome) →
      (∃ w ∈ SplitIntoWords document, IsValidWord w = false) →
      (AddDocument s document_id document status ratings).2 = some .invalidArgument ∧
      (AddDocument s document_id document status ratings).1.documents =
        mset s.documents document_id (DocumentData.mk
          (ComputeAverageRating ratings) status document []) ∧
      (AddDocument s document_id document status ratings).1.word_to_document_freqs =
        s.word_to_document_freqs ∧
      (AddDocument s document_id document status ratings).1.document_ids =
        s.document_ids ∧
      GetDocumentCount (AddDocument s document_id document status ratings).1 =
        GetDocumentCount s + 1) ∧
    ((AddDocument s document_id document status ratings).2.isSome →
      (document_id < 0 ∨ (mfind? s.documents document_id).isSome ∨
        ∃ w ∈ SplitIntoWords document, IsValidWord w = false)) := by
  refine ⟨?_, ?_, ?_⟩
  · intro hfail
    rw [AddDocument, if_pos hfail]
  · intro hneg hex
    have herr : SplitIntoWordsNoStop s document = .error .invalidArgument := by
      rw [SplitIntoWordsNoStop]
      exact (filterWordsNoStop_error_iff s (SplitIntoWords document)).mpr hex
    rw [AddDocument_err_state s document_id document status ratings .invalidArgument hneg herr]
    refine ⟨rfl, rfl, rfl, rfl, ?_⟩
    rw [GetDocumentCount, GetDocumentCount]
    exact length_mset_new s.documents document_id _
      (Option.not_isSome_iff_eq_none.mp (fun hs => hneg (Or.inr hs)))
  · intro hsome
    by_cases hneg : document_id < 0 ∨ (mfind? s.documents document_id).isSome
    · rcases hneg with h | h
      · exact Or.inl h
      · exact Or.inr (Or.inl h)
    · cases hw : SplitIntoWordsNoStop s document with
      | error e =>
        rw [SplitIntoWordsNoStop] at hw
        have he := filterWordsNoStop_error_kind s _ e hw
        rw [he] at hw
        exact Or.inr (Or.inr ((filterWordsNoStop_error_iff s _).mp hw))
      | ok words =>
        rw [AddDocument_ok_state s document_id document status ratings words hneg hw] at hsome
        cases hsome

theorem C1_add_document_failure_witness :
    AddDocument (SearchServer.mk [] [] [] []) (-1) [97] .ACTUAL [] =
      (SearchServer.mk [] [] [] [], some .invalidArgument) :=
  (C1_add_document_failure (SearchServer.mk [] [] [] []) (-1) [97] .ACTUAL []).1
    (Or.inl (by norm_num))

/-! ### Set lemmas and further map lemmas for the index invariant -/

theorem mem_sinsert_self {κ : Type} [LinearOrder κ] (l : List κ) (k : κ) :
    k ∈ sinsert l k := by
  induction l with
  | nil => simp [sinsert]
  | cons k2 tl ih =>
    rw [sinsert]
    by_cases h1 : k < k2
    · rw [if_pos h1]; exact List.mem_cons_self _ _
    · rw [if_neg h1]
      by_cases h2 : k = k2
      · rw [if_pos h2, h2]; exact List.mem_cons_self _ _
      · rw [if_neg h2]; exact List.mem_cons_of_mem _ ih

theorem mem_sinsert_of_mem {κ : Type} [LinearOrder κ] (l : List κ) (k x : κ)
    (hx : x ∈ l) : x ∈ sinsert l k := by
  induction l with
  | nil => simp at hx
  | cons k2 tl ih =>
    rw [sinsert]
    by_cases h1 : k < k2
    · rw [if_pos h1]; exact List.mem_cons_of_mem _ hx
    · rw [if_neg h1]
      by_cases h2 : k = k2
      · rw [if_pos h2]; exact hx
      · rw [if_neg h2]
        rcases List.mem_cons.mp hx with h3 | h3
        · rw [h3]; exact List.mem_cons_self _ _
        · exact List.mem_cons_of_mem _ (ih h3)

theorem mem_sinsert_iff {κ : Type} [LinearOrder κ] (l : List κ) (k x : κ) :
    x ∈ sinsert l k ↔ (x = k ∨ x ∈ l) := by
  constructor
  · exact mem_sinsert_imp l k x
  · intro h
    rcases h with h | h
    · rw [h]; exact mem_sinsert_self l k
    · exact mem_sinsert_of_mem l k x h

theorem mem_serase_imp {κ : Type} [LinearOrder κ] (l : List κ) (k x : κ)
    (hx : x ∈ serase l k) : x ∈ l := by
  induction l with
  | nil => simp [serase] at hx
  | cons k2 tl ih =>
    rw [serase] at hx
    by_cases h1 : k = k2
    · rw [if_pos h1] at hx
      exact List.mem_cons_of_mem _ hx
    · rw [if_neg h1] at hx
      rcases List.mem_cons.mp hx with h3 | h3
      · rw [h3]; exact List.mem_cons_self _ _
      · exact List.mem_cons_of_mem _ (ih h3)

theorem sWF_serase {κ : Type} [LinearOrder κ] (l : List κ) (k : κ)
    (hwf : sWF l) : sWF (serase l k) := by
  induction l with
  | nil => simp [serase, sWF]
  | cons k2 tl ih =>
    rw [sWF, List.pairwise_cons] at hwf
    rw [serase]
    by_cases h1 : k = k2
    · rw [if_pos h1]
      exact hwf.2
    · rw [if_neg h1, sWF, List.pairwise_cons]
      refine ⟨?_, ih hwf.2⟩
      intro x hx
      exact hwf.1 x (mem_serase_imp tl k x hx)

theorem not_mem_serase_self {κ : Type} [LinearOrder κ] (l : List κ) (k : κ)
    (hwf : sWF l) : k ∉ serase l k := by
  induction l with
  | nil => simp [serase]
  | cons k2 tl ih =>
    rw [sWF, List.pairwise_cons] at hwf
    rw [serase]
    by_cases h1 : k = k2
    · rw [if_pos h1]
      intro hk
      exact absurd (h1 ▸ hwf.1 k hk) (lt_irrefl k)
    · rw [if_neg h1]
      intro hk
      rcases List.mem_cons.mp hk with h3 | h3
      · exact h1 h3
      · exact ih hwf.2 h3

theorem mem_serase_of_ne {κ : Type} [LinearOrder κ] (l : List κ) (k x : κ)
    (hne : x ≠ k) (hx : x ∈ l) : x ∈ serase l k := by
  induction l with
  | nil => simp at hx
  | cons k2 tl ih =>
    rw [serase]
    by_cases h1 : k = k2
    · rw [if_pos h1]
      rcases List.mem_cons.mp hx with h3 | h3
      · exact absurd (h3.trans h1.symm) hne
      · exact h3
    · rw [if_neg h1]
      rcases List.mem_cons.mp hx with h3 | h3
      · rw [h3]; exact List.mem_cons_self _ _
      · exact List.mem_cons_of_mem _ (ih h3)

theorem mem_mset_cases {κ ν : Type} [LinearOrder κ] (m : Mp κ ν) (k : κ) (v : ν)
    (p : κ × ν) (hp : p ∈ mset m k v) : p = (k, v) ∨ p ∈ m := by
  induction m with
  | nil =>
    rw [mset] at hp
    exact Or.inl (List.mem_singleton.mp hp)
  | cons hd tl ih =>
    obtain ⟨k2, v2⟩ := hd
    rw [mset] at hp
    by_cases h1 : k < k2
    · rw [if_pos h1] at hp
      rcases List.mem_cons.mp hp with h | hp2
      · exact Or.inl h
      · exact Or.inr hp2
    · rw [if_neg h1] at hp
      by_cases h2 : k = k2
      · rw [if_pos h2] at hp
        rcases List.mem_cons.mp hp with h | hp2
        · exact Or.inl h
        · exact Or.inr (List.mem_cons_of_mem _ hp2)
      · rw [if_neg h2] at hp
        rcases List.mem_cons.mp hp with h | hp2
        · exact Or.inr (by rw [h]; exact List.mem_cons_self _ _)
        · rcases ih hp2 with h | h
          · exact Or.inl h
          · exact Or.inr (List.mem_cons_of_mem _ h)

theorem mfind?_isSome_iff {κ ν : Type} [LinearOrder κ] (m : Mp κ ν) (k : κ) :
    (mfind? m k).isSome ↔ ∃ v, (k, v) ∈ m := by
  induction m with
  | nil => simp [mfind?]
  | cons hd tl ih =>
    obtain ⟨k2, v2⟩ := hd
    rw [mfind?]
    by_cases h1 : k = k2
    · rw [if_pos h1]
      subst h1
      simp
    · rw [if_neg h1]
      rw [ih]
      constructor
      · intro h
        obtain ⟨v, hv⟩ := h
        exact ⟨v, List.mem_cons_of_mem _ hv⟩
      · intro h
        obtain ⟨v, hv⟩ := h
        rcases List.mem_cons.mp hv with h3 | h3
        · exact absurd (congrArg Prod.fst h3) h1
        · exact ⟨v, h3⟩

/-! ### Inverted-index lemmas -/

/-- `(word, document_id)` has an entry in an inverted-index map. -/
def idxHas (m : Mp Str (Mp ℤ ℚ)) (word : Str) (document_id : ℤ) : Prop :=
  ∃ inner, mfind? m word = some inner ∧ (mfind? inner document_id).isSome

/-- Well-formedness of an inverted-index map: the outer map and every
inner map are strictly key-sorted. -/
def idxWF (m : Mp Str (Mp ℤ ℚ)) : Prop :=
  mWF m ∧ ∀ p ∈ m, mWF p.2

theorem mfind?_some_mem {κ ν : Type} [LinearOrder κ] (m : Mp κ ν) (k : κ) (v : ν)
    (h : mfind? m k = some v) : (k, v) ∈ m := by
  induction m with
  | nil => simp [mfind?] at h
  | cons hd tl ih =>
    obtain ⟨k2, v2⟩ := hd
    rw [mfind?] at h
    by_cases h1 : k = k2
    · rw [if_pos h1] at h
      rw [h1, Option.some.inj h]
      exact List.mem_cons_self _ _
    · rw [if_neg h1] at h
      exact List.mem_cons_of_mem _ (ih h)

theorem mfind?_isSome_iff_mem_map {κ ν : Type} [LinearOrder κ] (m : Mp κ ν) (k : κ) :
    (mfind? m k).isSome ↔ k ∈ m.map (fun p => p.1) := by
  rw [mfind?_isSome_iff]
  constructor
  · intro h
    obtain ⟨v, hv⟩ := h
    exact List.mem_map.mpr ⟨(k, v), hv, rfl⟩
  · intro h
    obtain ⟨p, hp, hk⟩ := List.mem_map.mp h
    exact ⟨p.2, by rw [← hk]; exact hp⟩

theorem idxWF_getD (m : Mp Str (Mp ℤ ℚ)) (w : Str) (h : idxWF m) :
    mWF ((mfind? m w).getD []) := by
  cases hm : mfind? m w with
  | none => simp [mWF]
  | some inner =>
    simp only [Option.getD_some]
    exact h.2 (w, inner) (mfind?_some_mem _ _ _ hm)

theorem mfind?_maddTo_isSome {κ : Type} [LinearOrder κ] (m : Mp κ ℚ) (k k2 : κ) (d : ℚ) :
    (mfind? (maddTo m k d) k2).isSome ↔ (k2 = k ∨ (mfind? m k2).isSome) := by
  by_cases h : k2 = k
  · subst h
    rw [maddTo, mfind?_mset_self]
    simp
  · rw [maddTo, mfind?_mset_ne _ _ _ _ h]
    simp [h]

theorem mfind?_merase_isSome {κ ν : Type} [LinearOrder κ] (m : Mp κ ν) (k k2 : κ)
    (hwf : mWF m) : (mfind? (merase m k) k2).isSome ↔
      (k2 ≠ k ∧ (mfind? m k2).isSome) := by
  by_cases h : k2 = k
  · subst h
    rw [mfind?_merase_self _ _ hwf]
    simp
  · rw [mfind?_merase_ne _ _ _ h]
    simp [h]

theorem idxHas_iff_getD (m : Mp Str (Mp ℤ ℚ)) (w : Str) (id : ℤ) :
    idxHas m w id ↔ (mfind? ((mfind? m w).getD []) id).isSome := by
  cases hm : mfind? m w with
  | none => simp [idxHas, hm, mfind?]
  | some inner => simp [idxHas, hm]

theorem idxWF_idxAddTo (m : Mp Str (Mp ℤ ℚ)) (w : Str) (id : ℤ) (d : ℚ)
    (h : idxWF m) : idxWF (idxAddTo m w id d) := by
  constructor
  · exact mWF_mset _ _ _ h.1
  · intro p hp
    rcases mem_mset_cases _ _ _ p hp with h2 | h2
    · rw [h2]
      exact mWF_maddTo _ _ _ (idxWF_getD m w h)
    · exact h.2 p h2

theorem idxWF_idxEraseFrom (m : Mp Str (Mp ℤ ℚ)) (w : Str) (id : ℤ)
    (h : idxWF m) : idxWF (idxEraseFrom m w id) := by
  constructor
  · exact mWF_mset _ _ _ h.1
  · intro p hp
    rcases mem_mset_cases _ _ _ p hp with h2 | h2
    · rw [h2]
      exact mWF_merase _ _ (idxWF_getD m w h)
    · exact h.2 p h2

theorem idxHas_idxAddTo_iff (m : Mp Str (Mp ℤ ℚ)) (w0 : Str) (id : ℤ) (d : ℚ)
    (w : Str) (id2 : ℤ) :
    idxHas (idxAddTo m w0 id d) w id2 ↔ ((w = w0 ∧ id2 = id) ∨ idxHas m w id2) := by
  by_cases hw : w = w0
  · subst hw
    rw [idxHas_iff_getD, idxAddTo, mfind?_mset_self, Option.getD_some,
      mfind?_maddTo_isSome, idxHas_iff_getD]
    simp
  · rw [idxHas, idxAddTo, mfind?_mset_ne _ _ _ _ hw]
    rw [show (∃ inner, mfind? m w = some inner ∧ (mfind? inner id2).isSome)
      = idxHas m w id2 from rfl]
    simp [hw]

theorem idxHas_idxEraseFrom_iff (m : Mp Str (Mp ℤ ℚ)) (w0 : Str) (id : ℤ)
    (w : Str) (id2 : ℤ) (hwf : idxWF m) :
    idxHas (idxEraseFrom m w0 id) w id2 ↔
      (idxHas m w id2 ∧ ¬(w = w0 ∧ id2 = id)) := by
  by_cases hw : w = w0
  · subst hw
    rw [idxHas_iff_getD, idxEraseFrom, mfind?_mset_self, Option.getD_some,
      mfind?_merase_isSome _ _ _ (idxWF_getD m w hwf), idxHas_iff_getD]
    simp
    tauto
  · rw [idxHas, idxEraseFrom, mfind?_mset_ne _ _ _ _ hw]
    rw [show (∃ inner, mfind? m w = some inner ∧ (mfind? inner id2).isSome)
      = idxHas m w id2 from rfl]
    simp [hw]

theorem idxWF_foldl_idxAddTo (ws : List Str) (id : ℤ) (d : ℚ) :
    ∀ m0, idxWF m0 → idxWF (ws.foldl (fun m w => idxAddTo m w id d) m0) := by
  induction ws with
  | nil => intro m0 h; exact h
  | cons w0 ws ih =>
    intro m0 h
    rw [List.foldl_cons]
    exact ih _ (idxWF_idxAddTo _ _ _ _ h)

theorem idxHas_foldl_idxAddTo (ws : List Str) (id : ℤ) (d : ℚ) (w : Str) (id2 : ℤ) :
    ∀ m0, idxHas (ws.foldl (fun m w => idxAddTo m w id d) m0) w id2 ↔
      ((id2 = id ∧ w ∈ ws) ∨ idxHas m0 w id2) := by
  induction ws with
  | nil => intro m0; simp
  | cons w0 ws ih =>
    intro m0
    rw [List.foldl_cons, ih, idxHas_idxAddTo_iff]
    simp only [List.mem_cons]
    tauto

theorem idxWF_foldl_idxEraseFrom (l : List (Str × ℚ)) (id : ℤ) :
    ∀ m0, idxWF m0 → idxWF (l.foldl (fun m p => idxEraseFrom m p.1 id) m0) := by
  induction l with
  | nil => intro m0 h; exact h
  | cons p l ih =>
    intro m0 h
    rw [List.foldl_cons]
    exact ih _ (idxWF_idxEraseFrom _ _ _ h)

theorem idxHas_foldl_idxEraseFrom (l : List (Str × ℚ)) (id : ℤ) (w : Str) (id2 : ℤ) :
    ∀ m0, idxWF m0 →
      (idxHas (l.foldl (fun m p => idxEraseFrom m p.1 id) m0) w id2 ↔
        (idxHas m0 w id2 ∧ ¬(id2 = id ∧ w ∈ l.map (fun p => p.1)))) := by
  induction l with
  | nil => intro m0 _; simp
  | cons p l ih =>
    intro m0 h
    rw [List.foldl_cons, ih _ (idxWF_idxEraseFrom _ _ _ h),
      idxHas_idxEraseFrom_iff _ _ _ _ _ h]
    simp only [List.map_cons, List.mem_cons]
    tauto

theorem mfind?_foldl_maddTo_isSome {κ : Type} [LinearOrder κ] (ws : List κ) (d : ℚ)
    (k : κ) : ∀ m0 : Mp κ ℚ,
      (mfind? (ws.foldl (fun m w => maddTo m w d) m0) k).isSome ↔
        (k ∈ ws ∨ (mfind? m0 k).isSome) := by
  induction ws with
  | nil => intro m0; simp
  | cons w ws ih =>
    intro m0
    rw [List.foldl_cons, ih, mfind?_maddTo_isSome]
    simp only [List.mem_cons]
    tauto

/-! ### C3 — index / document store / registry consistency -/

/-- `word` appears in the document's own stored frequency mapping. -/
def docFreqHas (s : SearchServer) (document_id : ℤ) (word : Str) : Prop :=
  ∃ dd, mfind? s.documents document_id = some dd ∧
    (mfind? dd.word_to_freqs word).isSome

theorem docFreqHas_congr (s s2 : SearchServer) (document_id : ℤ)
    (h : mfind? s.documents document_id = mfind? s2.documents document_id) (w : Str) :
    docFreqHas s document_id w ↔ docFreqHas s2 document_id w := by
  rw [docFreqHas, docFreqHas, h]

/-- The engine-state invariant: all maps are well-formed, every
registered id has a stored document, and a (word, id) entry exists in the
inverted index iff the word is in that document's frequency mapping and
the id is registered. -/
def StateInv (s : SearchServer) : Prop :=
  mWF s.documents ∧ idxWF s.word_to_document_freqs ∧ sWF s.document_ids ∧
  (∀ id ∈ s.document_ids, (mfind? s.documents id).isSome) ∧
  (∀ w id, idxHas s.word_to_document_freqs w id ↔
    (docFreqHas s id w ∧ id ∈ s.document_ids))

theorem Inv_init (stop_words : List Str) (s : SearchServer)
    (h : mkSearchServer stop_words = .ok s) : StateInv s := by
  rw [mkSearchServer] at h
  by_cases hv : (MakeUniqueNonEmptyStrings stop_words).all IsValidWord
  · rw [if_pos hv] at h
    rw [← Except.ok.inj h]
    refine ⟨by simp [mWF], ⟨by simp [mWF], by simp⟩, by simp [sWF], by simp, ?_⟩
    intro w id
    simp [idxHas, docFreqHas, mfind?]
  · rw [if_neg hv] at h
    cases h

theorem Inv_AddDocument (s : SearchServer) (document_id : ℤ) (document : Str)
    (status : DocumentStatus) (ratings : List ℤ) (h : StateInv s) :
    StateInv (AddDocument s document_id document status ratings).1 := by
  by_cases hneg : document_id < 0 ∨ (mfind? s.documents document_id).isSome
  · rw [AddDocument, if_pos hneg]
    exact h
  · have hid_nd : mfind? s.documents document_id = none :=
      Option.not_isSome_iff_eq_none.mp (fun hs => hneg (Or.inr hs))
    have hid_nr : document_id ∉ s.document_ids := fun hm => by
      have h2 := h.2.2.2.1 document_id hm
      rw [hid_nd] at h2
      exact absurd h2 (by simp)
    cases hw : SplitIntoWordsNoStop s document with
    | error e =>
      rw [AddDocument_err_state _ _ _ _ _ e hneg hw]
      refine ⟨mWF_mset _ _ _ h.1, h.2.1, h.2.2.1, ?_, ?_⟩
      · intro id2 hm
        by_cases hi : id2 = document_id
        · subst hi
          rw [mfind?_mset_self]
          simp
        · rw [mfind?_mset_ne _ _ _ _ hi]
          exact h.2.2.2.1 id2 hm
      · intro w id2
        by_cases hi : id2 = document_id
        · subst hi
          rw [h.2.2.2.2 w id2]
          constructor
          · intro hx
            exact absurd hx.2 hid_nr
          · intro hx
            exact absurd hx.2 hid_nr
        · rw [h.2.2.2.2 w id2]
          rw [docFreqHas_congr _
            ({ s with documents := mset s.documents document_id (DocumentData.mk
              (ComputeAverageRating ratings) status document []) }) id2
            (mfind?_mset_ne _ _ _ _ hi).symm w]
    | ok words =>
      rw [AddDocument_ok_state _ _ _ _ _ words hneg hw]
      refine ⟨mWF_mset _ _ _ h.1, idxWF_foldl_idxAddTo _ _ _ _ h.2.1,
        sWF_sinsert _ _ h.2.2.1, ?_, ?_⟩
      · intro id2 hm
        by_cases hi : id2 = document_id
        · subst hi
          rw [mfind?_mset_self]
          simp
        · rw [mfind?_mset_ne _ _ _ _ hi]
          rcases mem_sinsert_imp _ _ _ hm with h2 | h2
          · exact absurd h2 hi
          · exact h.2.2.2.1 id2 h2
      · intro w id2
        rw [idxHas_foldl_idxAddTo]
        by_cases hi : id2 = document_id
        · subst hi
          constructor
          · intro hx
            rcases hx with ⟨_, hww⟩ | hx
            · refine ⟨⟨_, mfind?_mset_self _ _ _, ?_⟩, mem_sinsert_self _ _⟩
              rw [mfind?_foldl_maddTo_isSome]
              exact Or.inl hww
            · exact absurd ((h.2.2.2.2 w id2).mp hx).2 hid_nr
          · intro hx
            obtain ⟨⟨dd, hdd, hsome⟩, _⟩ := hx
            rw [mfind?_mset_self] at hdd
            rw [← Option.some.inj hdd] at hsome
            rw [mfind?_foldl_maddTo_isSome] at hsome
            rcases hsome with hww | hempty
            · exact Or.inl ⟨rfl, hww⟩
            · rw [mfind?] at hempty
              exact absurd hempty (by simp)
        · have hmem : id2 ∈ sinsert s.document_ids document_id ↔ id2 ∈ s.document_ids := by
            rw [mem_sinsert_iff]
            simp [hi]
          constructor
          · intro hx
            rcases hx with ⟨hii, _⟩ | hx
            · exact absurd hii hi
            · obtain ⟨hdf, hmm⟩ := (h.2.2.2.2 w id2).mp hx
              refine ⟨?_, hmem.mpr hmm⟩
              obtain ⟨dd, hdd, hsome⟩ := hdf
              exact ⟨dd, by rw [mfind?_mset_ne _ _ _ _ hi]; exact hdd, hsome⟩
          · intro hx
            obtain ⟨hdf, hmm⟩ := hx
            refine Or.inr ((h.2.2.2.2 w id2).mpr ⟨?_, hmem.mp hmm⟩)
            obtain ⟨dd, hdd, hsome⟩ := hdf
            rw [mfind?_mset_ne _ _ _ _ hi] at hdd
            exact ⟨dd, hdd, hsome⟩

theorem Inv_RemoveDocument (s : SearchServer) (document_id : ℤ) (h : StateInv s) :
    StateInv (RemoveDocument s document_id) := by
  cases hd : mfind? s.documents document_id with
  | none =>
    rw [RemoveDocument, hd]
    exact h
  | some dd =>
    rw [RemoveDocument, hd]
    refine ⟨mWF_merase _ _ h.1, idxWF_foldl_idxEraseFrom _ _ _ h.2.1,
      sWF_serase _ _ h.2.2.1, ?_, ?_⟩
    · intro id2 hm
      have hne : id2 ≠ document_id := fun he =>
        (not_mem_serase_self _ _ h.2.2.1) (he ▸ hm)
      rw [mfind?_merase_ne _ _ _ hne]
      exact h.2.2.2.1 id2 (mem_serase_imp _ _ _ hm)
    · intro w id2
      rw [idxHas_foldl_idxEraseFrom _ _ _ _ _ h.2.1]
      by_cases hi : id2 = document_id
      · subst hi
        constructor
        · rintro ⟨hhas, hnot⟩
          exfalso
          obtain ⟨⟨dd0, hdd0, hsome⟩, _⟩ := (h.2.2.2.2 w id2).mp hhas
          rw [hd] at hdd0
          rw [← Option.some.inj hdd0] at hsome
          exact hnot ⟨rfl, (mfind?_isSome_iff_mem_map _ _).mp hsome⟩
        · rintro ⟨⟨dd0, hdd0, _⟩, _⟩
          rw [mfind?_merase_self _ _ h.1] at hdd0
          cases hdd0
      · have hmem : id2 ∈ serase s.document_ids document_id ↔ id2 ∈ s.document_ids := by
          constructor
          · exact mem_serase_imp _ _ _
          · exact mem_serase_of_ne _ _ _ hi
        constructor
        · rintro ⟨hhas, _⟩
          obtain ⟨hdf, hmm⟩ := (h.2.2.2.2 w id2).mp hhas
          refine ⟨?_, hmem.mpr hmm⟩
          obtain ⟨dd0, hdd0, hsome⟩ := hdf
          exact ⟨dd0, by rw [mfind?_merase_ne _ _ _ hi]; exact hdd0, hsome⟩
        · rintro ⟨hdf, hmm⟩
          refine ⟨?_, ?_⟩
          · refine (h.2.2.2.2 w id2).mpr ⟨?_, hmem.mp hmm⟩
            obtain ⟨dd0, hdd0, hsome⟩ := hdf
            rw [mfind?_merase_ne _ _ _ hi] at hdd0
            exact ⟨dd0, hdd0, hsome⟩
          · intro hcontra
            exact hi hcontra.1

theorem Reach_Inv (s : SearchServer) (h : Reach s) : StateInv s := by
  induction h with
  | init stop_words s2 h2 => exact Inv_init stop_words s2 h2
  | add s2 id doc st ratings _ ih => exact Inv_AddDocument s2 id doc st ratings ih
  | remove s2 id _ ih => exact Inv_RemoveDocument s2 id ih

/-- C3: in every reachable state, a (word, id) entry exists in the
inverted index iff the word appears in that document's stored frequency
mapping and the id is in the registry; and after `RemoveDocument(id)` the
id is absent from the registry, `GetWordFrequencies(id)` is the empty
map, and no inner entry of the inverted index refers to id. -/
theorem C3_index_consistency (s : SearchServer) (hs : Reach s) :
    (∀ w document_id, idxHas s.word_to_document_freqs w document_id ↔
      (docFreqHas s document_id w ∧ document_id ∈ s.document_ids)) ∧
    (∀ document_id,
      document_id ∉ (RemoveDocument s document_id).document_ids ∧
      GetWordFrequencies (RemoveDocument s document_id) document_id = [] ∧
      (∀ w, ¬ idxHas (RemoveDocument s document_id).word_to_document_freqs
        w document_id)) := by
  have hi := Reach_Inv s hs
  refine ⟨hi.2.2.2.2, ?_⟩
  intro document_id
  have hnone : mfind? (RemoveDocument s document_id).documents document_id = none := by
    cases hd : mfind? s.documents document_id with
    | none =>
      rw [RemoveDocument, hd]
      exact hd
    | some dd =>
      rw [RemoveDocument, hd]
      exact mfind?_merase_self _ _ hi.1
  have hinv2 := Inv_RemoveDocument s document_id hi
  refine ⟨?_, ?_, ?_⟩
  · intro hm
    have h2 := hinv2.2.2.2.1 document_id hm
    rw [hnone] at h2
    exact absurd h2 (by simp)
  · rw [GetWordFrequencies, hnone]
  · intro w hw
    obtain ⟨⟨dd0, hdd0, _⟩, _⟩ := (hinv2.2.2.2.2 w document_id).mp hw
    rw [hnone] at hdd0
    cases hdd0

theorem C3_index_consistency_witness :
    idxHas (SearchServer.mk [] [] [] []).word_to_document_freqs [97] 0 ↔
      (docFreqHas (SearchServer.mk [] [] [] []) 0 [97] ∧
        (0 : ℤ) ∈ (SearchServer.mk [] [] [] []).document_ids) :=
  (C3_index_consistency (SearchServer.mk [] [] [] []) (Reach.init [] _ rfl)).1 [97] 0

/-! ### C4 — minus-term exclusion -/

theorem mfind?_foldl_cmErase_none (l : List (ℤ × ℚ)) (document_id : ℤ) :
    ∀ acc : ConcurrentMapQ, mfind? acc document_id = none →
      mfind? (l.foldl (fun a p => cmErase a p.1) acc) document_id = none := by
  induction l with
  | nil => intro acc h; exact h
  | cons p l ih =>
    intro acc h
    rw [List.foldl_cons]
    refine ih _ ?_
    rw [cmErase]
    rw [← Option.not_isSome_iff_eq_none] at h ⊢
    intro hs
    obtain ⟨v, hv⟩ := (mfind?_isSome_iff _ _).mp hs
    exact h ((mfind?_isSome_iff _ _).mpr ⟨v, mem_merase_imp _ _ _ hv⟩)

theorem mWF_foldl_cmErase (l : List (ℤ × ℚ)) :
    ∀ acc : ConcurrentMapQ, mWF acc →
      mWF (l.foldl (fun a p => cmErase a p.1) acc) := by
  induction l with
  | nil => intro acc h; exact h
  | cons p l ih =>
    intro acc h
    rw [List.foldl_cons]
    exact ih _ (mWF_merase _ _ h)

theorem mfind?_foldl_cmErase_hit (l : List (ℤ × ℚ)) (document_id : ℤ) :
    ∀ acc : ConcurrentMapQ, mWF acc → (∃ f, (document_id, f) ∈ l) →
      mfind? (l.foldl (fun a p => cmErase a p.1) acc) document_id = none := by
  induction l with
  | nil =>
    intro acc _ h
    simp at h
  | cons p l ih =>
    intro acc hwf hex
    rw [List.foldl_cons]
    by_cases hp : p.1 = document_id
    · refine mfind?_foldl_cmErase_none l document_id _ ?_
      rw [cmErase, hp]
      exact mfind?_merase_self _ _ hwf
    · obtain ⟨f, hf⟩ := hex
      rcases List.mem_cons.mp hf with h1 | h1
      · exact absurd (congrArg Prod.fst h1).symm hp
      · exact ih _ (mWF_merase _ _ hwf) ⟨f, h1⟩

theorem mWF_minusWordStep (s : SearchServer) (acc : ConcurrentMapQ) (w : Str)
    (hwf : mWF acc) : mWF (minusWordStep s acc w) := by
  cases hx : mfind? s.word_to_document_freqs w with
  | none =>
    simp only [minusWordStep, hx]
    exact hwf
  | some inner =>
    simp only [minusWordStep, hx]
    exact mWF_foldl_cmErase inner acc hwf

theorem mfind?_minusWordStep_none (s : SearchServer) (acc : ConcurrentMapQ)
    (w : Str) (document_id : ℤ) (h : mfind? acc document_id = none) :
    mfind? (minusWordStep s acc w) document_id = none := by
  cases hx : mfind? s.word_to_document_freqs w with
  | none =>
    simp only [minusWordStep, hx]
    exact h
  | some inner =>
    simp only [minusWordStep, hx]
    exact mfind?_foldl_cmErase_none inner document_id acc h

theorem mfind?_minusWordStep_hit (s : SearchServer) (acc : ConcurrentMapQ)
    (w : Str) (document_id : ℤ) (inner : Mp ℤ ℚ)
    (hfound : mfind? s.word_to_document_freqs w = some inner)
    (hin : (mfind? inner document_id).isSome) (hwf : mWF acc) :
    mfind? (minusWordStep s acc w) document_id = none := by
  simp only [minusWordStep, hfound]
  exact mfind?_foldl_cmErase_hit inner document_id acc hwf
    ((mfind?_isSome_iff _ _).mp hin)

theorem mWF_foldl_minusWordStep (ws : List Str) (s : SearchServer) :
    ∀ acc : ConcurrentMapQ, mWF acc → mWF (ws.foldl (minusWordStep s) acc) := by
  induction ws with
  | nil => intro acc h; exact h
  | cons w ws ih =>
    intro acc h
    rw [List.foldl_cons]
    exact ih _ (mWF_minusWordStep s acc w h)

theorem mfind?_foldl_minusWordStep_none (ws : List Str) (s : SearchServer)
    (document_id : ℤ) : ∀ acc : ConcurrentMapQ, mfind? acc document_id = none →
      mfind? (ws.foldl (minusWordStep s) acc) document_id = none := by
  induction ws with
  | nil => intro acc h; exact h
  | cons w ws ih =>
    intro acc h
    rw [List.foldl_cons]
    exact ih _ (mfind?_minusWordStep_none s acc w document_id h)

theorem mfind?_foldl_minusWordStep_hit (ws : List Str) (s : SearchServer)
    (document_id : ℤ) (m : Str) (inner : Mp ℤ ℚ) (hm : m ∈ ws)
    (hfound : mfind? s.word_to_document_freqs m = some inner)
    (hin : (mfind? inner document_id).isSome) :
    ∀ acc : ConcurrentMapQ, mWF acc →
      mfind? (ws.foldl (minusWordStep s) acc) document_id = none := by
  induction ws with
  | nil => simp at hm
  | cons w ws ih =>
    intro acc hwf
    rw [List.foldl_cons]
    rcases List.mem_cons.mp hm with h1 | h1
    · refine mfind?_foldl_minusWordStep_none ws s document_id _ ?_
      rw [h1] at hfound
      exact mfind?_minusWordStep_hit s acc w document_id inner hfound hin hwf
    · exact ih h1 _ (mWF_minusWordStep s acc w hwf)

theorem foldl_step_provenance (l : List (ℤ × ℚ))
    (st : ConcurrentMapQ → ℤ × ℚ → ConcurrentMapQ)
    (hst : ∀ a p, st a p = a ∨ ∃ d, st a p = cmAddToValue a p.1 d) (document_id : ℤ) :
    ∀ acc, (mfind? (l.foldl st acc) document_id).isSome →
      ((mfind? acc document_id).isSome ∨ ∃ f, (document_id, f) ∈ l) := by
  induction l with
  | nil =>
    intro acc h
    exact Or.inl h
  | cons p l ih =>
    intro acc h
    rw [List.foldl_cons] at h
    rcases ih (st acc p) h with h2 | h2
    · rcases hst acc p with h3 | ⟨d, h3⟩
      · rw [h3] at h2
        exact Or.inl h2
      · rw [h3, cmAddToValue, mfind?_maddTo_isSome] at h2
        rcases h2 with h4 | h4
        · exact Or.inr ⟨p.2, by rw [h4]; simp⟩
        · exact Or.inl h4
    · obtain ⟨f, hf⟩ := h2
      exact Or.inr ⟨f, List.mem_cons_of_mem _ hf⟩

theorem foldl_step_mWF (l : List (ℤ × ℚ))
    (st : ConcurrentMapQ → ℤ × ℚ → ConcurrentMapQ)
    (hst : ∀ a p, st a p = a ∨ ∃ d, st a p = cmAddToValue a p.1 d) :
    ∀ acc, mWF acc → mWF (l.foldl st acc) := by
  induction l with
  | nil => intro acc h; exact h
  | cons p l ih =>
    intro acc h
    rw [List.foldl_cons]
    refine ih _ ?_
    rcases hst acc p with h3 | ⟨d, h3⟩
    · rw [h3]; exact h
    · rw [h3, cmAddToValue]
      exact mWF_maddTo _ _ _ h

theorem plusWordStep_inner_step (logQ : ℚ → ℚ) (s : SearchServer)
    (pred : ℤ → DocumentStatus → ℤ → Bool) (idf : ℚ) :
    ∀ (a : ConcurrentMapQ) (p : ℤ × ℚ),
      (fun (a : ConcurrentMapQ) (p : ℤ × ℚ) =>
        if pred p.1 (docDataAt s p.1).status (docDataAt s p.1).rating then
          cmAddToValue a p.1 (p.2 * idf) else a) a p = a ∨
      ∃ d, (fun (a : ConcurrentMapQ) (p : ℤ × ℚ) =>
        if pred p.1 (docDataAt s p.1).status (docDataAt s p.1).rating then
          cmAddToValue a p.1 (p.2 * idf) else a) a p = cmAddToValue a p.1 d := by
  intro a p
  by_cases hp : pred p.1 (docDataAt s p.1).status (docDataAt s p.1).rating
  · right
    refine ⟨p.2 * idf, ?_⟩
    show (if pred p.1 (docDataAt s p.1).status (docDataAt s p.1).rating then
      cmAddToValue a p.1 (p.2 * idf) else a) = cmAddToValue a p.1 (p.2 * idf)
    rw [if_pos hp]
  · left
    show (if pred p.1 (docDataAt s p.1).status (docDataAt s p.1).rating then
      cmAddToValue a p.1 (p.2 * idf) else a) = a
    rw [if_neg hp]

theorem mWF_plusWordStep (logQ : ℚ → ℚ) (s : SearchServer)
    (pred : ℤ → DocumentStatus → ℤ → Bool) (acc : ConcurrentMapQ) (w : Str)
    (hwf : mWF acc) : mWF (plusWordStep logQ s pred acc w) := by
  cases hx : mfind? s.word_to_document_freqs w with
  | none =>
    simp only [plusWordStep, hx]
    exact hwf
  | some inner =>
    simp only [plusWordStep, hx]
    exact foldl_step_mWF inner _ (plusWordStep_inner_step logQ s pred _) acc hwf

theorem mfind?_plusWordStep_isSome (logQ : ℚ → ℚ) (s : SearchServer)
    (pred : ℤ → DocumentStatus → ℤ → Bool) (acc : ConcurrentMapQ) (w : Str)
    (document_id : ℤ)
    (h : (mfind? (plusWordStep logQ s pred acc w) document_id).isSome) :
    (mfind? acc document_id).isSome ∨ idxHas s.word_to_document_freqs w document_id := by
  cases hx : mfind? s.word_to_document_freqs w with
  | none =>
    simp only [plusWordStep, hx] at h
    exact Or.inl h
  | some inner =>
    simp only [plusWordStep, hx] at h
    rcases foldl_step_provenance inner _ (plusWordStep_inner_step logQ s pred _)
      document_id acc h with h2 | ⟨f, hf⟩
    · exact Or.inl h2
    · exact Or.inr ⟨inner, hx, (mfind?_isSome_iff _ _).mpr ⟨f, hf⟩⟩

theorem mWF_foldl_plusWordStep (ws : List Str) (logQ : ℚ → ℚ) (s : SearchServer)
    (pred : ℤ → DocumentStatus → ℤ → Bool) :
    ∀ acc : ConcurrentMapQ, mWF acc →
      mWF (ws.foldl (plusWordStep logQ s pred) acc) := by
  induction ws with
  | nil => intro acc h; exact h
  | cons w ws ih =>
    intro acc h
    rw [List.foldl_cons]
    exact ih _ (mWF_plusWordStep logQ s pred acc w h)

theorem mfind?_foldl_plusWordStep_isSome (ws : List Str) (logQ : ℚ → ℚ)
    (s : SearchServer) (pred : ℤ → DocumentStatus → ℤ → Bool) (document_id : ℤ) :
    ∀ acc : ConcurrentMapQ,
      (mfind? (ws.foldl (plusWordStep logQ s pred) acc) document_id).isSome →
      ((mfind? acc document_id).isSome ∨
        ∃ w, idxHas s.word_to_document_freqs w document_id) := by
  induction ws with
  | nil =>
    intro acc h
    exact Or.inl h
  | cons w ws ih =>
    intro acc h
    rw [List.foldl_cons] at h
    rcases ih _ h with h2 | h2
    · rcases mfind?_plusWordStep_isSome logQ s pred acc w document_id h2 with h3 | h3
      · exact Or.inl h3
      · exact Or.inr ⟨w, h3⟩
    · exact Or.inr h2

/-- The sort in `FindTopDocuments` permutes `FindAllDocuments`' output. -/
theorem sortDocs_perm (l : List Document) : (sortDocs l).Perm l :=
  List.perm_insertionSort _ l

/-- C4: for every reachable state, valid query and predicate, a document
in whose stored words any minus-term of the query occurs never appears in
the result of `FindTopDocuments`. -/
theorem C4_minus_term_exclusion (logQ : ℚ → ℚ) (s : SearchServer) (hs : Reach s)
    (raw_query : Str) (q : Query) (hq : ParseQuery s raw_query = .ok q)
    (pred : ℤ → DocumentStatus → ℤ → Bool) (document_id : ℤ) (m : Str)
    (hm : m ∈ q.minus_words) (hocc : docFreqHas s document_id m)
    (res : List Document) (hres : FindTopDocuments logQ s raw_query pred = .ok res) :
    ∀ d ∈ res, d.id ≠ document_id := by
  have hi := Reach_Inv s hs
  rw [FindTopDocuments, hq] at hres
  have hres2 : res = (sortDocs (FindAllDocuments logQ s q pred)).take
      MAX_RESULT_DOCUMENT_COUNT := (Except.ok.inj hres).symm
  have hwf1 : mWF (q.plus_words.foldl (plusWordStep logQ s pred) ([] : ConcurrentMapQ)) :=
    mWF_foldl_plusWordStep _ _ _ _ [] (by simp [mWF])
  have hnone : mfind? (q.minus_words.foldl (minusWordStep s)
      (q.plus_words.foldl (plusWordStep logQ s pred) ([] : ConcurrentMapQ)))
      document_id = none := by
    by_cases hreg : document_id ∈ s.document_ids
    · have hidx : idxHas s.word_to_document_freqs m document_id :=
        (hi.2.2.2.2 m document_id).mpr ⟨hocc, hreg⟩
      obtain ⟨inner, hfound, hin⟩ := hidx
      exact mfind?_foldl_minusWordStep_hit _ s document_id m inner hm hfound hin _ hwf1
    · refine mfind?_foldl_minusWordStep_none _ s document_id _ ?_
      rw [← Option.not_isSome_iff_eq_none]
      intro hsome
      rcases mfind?_foldl_plusWordStep_isSome _ logQ s pred document_id [] hsome
        with h2 | ⟨w, hw⟩
      · rw [mfind?] at h2
        exact absurd h2 (by simp)
      · exact hreg ((hi.2.2.2.2 w document_id).mp hw).2
  intro d hd hid
  rw [hres2] at hd
  have hd2 : d ∈ sortDocs (FindAllDocuments logQ s q pred) := List.take_subset _ _ hd
  have hd3 : d ∈ FindAllDocuments logQ s q pred := (sortDocs_perm _).subset hd2
  simp only [FindAllDocuments, cmBuildOrdinaryMap] at hd3
  obtain ⟨p, hp, hdp⟩ := List.mem_map.mp hd3
  have hpid : p.1 = document_id := by
    rw [← hid, ← hdp]
  have hsome : (mfind? (q.minus_words.foldl (minusWordStep s)
      (q.plus_words.foldl (plusWordStep logQ s pred) ([] : ConcurrentMapQ)))
      document_id).isSome := by
    refine (mfind?_isSome_iff _ _).mpr ⟨p.2, ?_⟩
    rw [← hpid]
    simpa using hp
  rw [hnone] at hsome
  exact absurd hsome (by simp)

/-- Engine with document 0 = "x" and document 1 = "y" for the C4 witness:
the query "x -y" returns document 0 only, and document 1 (which contains
the minus-term) is excluded. -/
def srvC4w : SearchServer :=
  (AddDocument (AddDocument (SearchServer.mk [] [] [] []) 0 [120] .ACTUAL []).1
    1 [121] .ACTUAL []).1

theorem C4_minus_term_exclusion_witness :
    (⟨0, 1, 0⟩ : Document).id ≠ (1 : ℤ) := by
  have hq : ParseQuery srvC4w [120, 32, 45, 121] = .ok ⟨[[120]], [[121]]⟩ := rfl
  have hall : FindAllDocuments (fun _ => 1) srvC4w ⟨[[120]], [[121]]⟩
      (fun _ _ _ => true) = [⟨0, 1, 0⟩] := by
    norm_num [FindAllDocuments, plusWordStep, minusWordStep, cmBuildOrdinaryMap,
      srvC4w, AddDocument, SplitIntoWordsNoStop, filterWordsNoStop, SplitIntoWords,
      IsValidWord, IsStopWord, ComputeAverageRating, idxAddTo, maddTo, mset,
      mfind?, sinsert, cmAddToValue, cmErase, merase, ComputeWordInverseDocumentFreq,
      GetDocumentCount, docDataAt, List.foldl]
  have hres : FindTopDocuments (fun _ => 1) srvC4w [120, 32, 45, 121]
      (fun _ _ _ => true) = .ok [⟨0, 1, 0⟩] := by
    simp only [FindTopDocuments, hq, hall]
    rfl
  exact C4_minus_term_exclusion (fun _ => 1) srvC4w
    (Reach.add _ 1 [121] .ACTUAL [] (Reach.add _ 0 [120] .ACTUAL []
      (Reach.init [] _ rfl)))
    [120, 32, 45, 121] ⟨[[120]], [[121]]⟩ hq (fun _ _ _ => true) 1 [121]
    (by simp) ⟨_, rfl, rfl⟩ [⟨0, 1, 0⟩] hres ⟨0, 1, 0⟩ (by simp)

/-! ### C2 — MatchDocument and query words absent from the index -/

/-- `word_to_document_freqs_.at(word).count(document_id) > 0`: the word's
inner index map (empty when the word is indexed nowhere) has the id. -/
def wordOccurs (s : SearchServer) (w : Str) (document_id : ℤ) : Bool :=
  (mfind? ((mfind? s.word_to_document_freqs w).getD []) document_id).isSome

/-- C2 counterexample: `MatchDocument` on a registered id fails with
`std::out_of_range` as soon as the query contains a word that occurs in
no indexed document, because `word_to_document_freqs_.at(word)` has no
presence guard — refuting the claim that the call succeeds for every
valid query. -/
theorem C2_match_unknown_word_throws :
    (1 : ℤ) ∈ (AddDocument (SearchServer.mk [] [] [] []) 1 [99] .ACTUAL
      []).1.document_ids ∧
    MatchDocument (AddDocument (SearchServer.mk [] [] [] []) 1 [99] .ACTUAL []).1
      [100] 1 = .error .outOfRange :=
  ⟨by decide, rfl⟩

theorem foldlM_matchPlusStep (s : SearchServer) (document_id : ℤ) (ws : List Str)
    (hws : ∀ w ∈ ws, (mfind? s.word_to_document_freqs w).isSome) :
    ∀ acc : List Str, ws.foldlM (matchPlusStep s document_id) acc =
      .ok (acc ++ ws.filter (fun w => wordOccurs s w document_id)) := by
  induction ws with
  | nil =>
    intro acc
    simp
    rfl
  | cons w ws ih =>
    intro acc
    obtain ⟨inner, hinner⟩ := Option.isSome_iff_exists.mp
      (hws w (List.mem_cons_self _ _))
    rw [List.foldlM_cons]
    have hstep : matchPlusStep s document_id acc w =
        .ok (if wordOccurs s w document_id then acc ++ [w] else acc) := by
      simp only [matchPlusStep, hinner, wordOccurs, hinner, Option.getD_some]
    rw [hstep]
    show ws.foldlM (matchPlusStep s document_id)
      (if wordOccurs s w document_id then acc ++ [w] else acc) = _
    rw [ih (fun w2 hw2 => hws w2 (List.mem_cons_of_mem _ hw2))]
    by_cases ho : wordOccurs s w document_id
    · rw [if_pos ho]
      simp [List.filter_cons, ho]
    · rw [if_neg ho]
      simp only [List.filter_cons]
      rw [if_neg (by simpa using ho)]

theorem foldlM_matchMinusStep (s : SearchServer) (document_id : ℤ) (ws : List Str)
    (hws : ∀ w ∈ ws, (mfind? s.word_to_document_freqs w).isSome) :
    ∀ acc : List Str, ws.foldlM (matchMinusStep s document_id) acc =
      .ok (if ws.any (fun w => wordOccurs s w document_id) then [] else acc) := by
  induction ws with
  | nil =>
    intro acc
    simp
    rfl
  | cons w ws ih =>
    intro acc
    obtain ⟨inner, hinner⟩ := Option.isSome_iff_exists.mp
      (hws w (List.mem_cons_self _ _))
    rw [List.foldlM_cons]
    have hstep : matchMinusStep s document_id acc w =
        .ok (if wordOccurs s w document_id then [] else acc) := by
      simp only [matchMinusStep, hinner, wordOccurs, Option.getD_some]
    rw [hstep]
    show ws.foldlM (matchMinusStep s document_id)
      (if wordOccurs s w document_id then [] else acc) = _
    rw [ih (fun w2 hw2 => hws w2 (List.mem_cons_of_mem _ hw2))]
    by_cases ho : wordOccurs s w document_id
    · rw [if_pos ho]
      simp [List.any_cons, ho]
    · have hfalse : wordOccurs s w document_id = false := by
        revert ho
        cases wordOccurs s w document_id <;> simp
      rw [if_neg ho]
      simp [List.any_cons, hfalse]

/-- C2 (amended): for every reachable state, registered id and valid
query all of whose plus- and minus-terms occur somewhere in the inverted
index, `MatchDocument` succeeds: it returns the plus-terms that occur in
that document together with the document's stored status, and the empty
word list instead when any minus-term occurs in the document; for a
registered id, a word "occurs in the document" via the inverted index
exactly when it appears in the document's own frequency mapping.  (The
occurrence hypotheses are necessary: `MatchDocument` throws
`std::out_of_range` on any query word absent from the index.) -/
theorem C2_match_document (s : SearchServer) (hs : Reach s) (raw_query : Str)
    (q : Query) (hq : ParseQuery s raw_query = .ok q) (document_id : ℤ)
    (hid : document_id ∈ s.document_ids)
    (hplus : ∀ w ∈ q.plus_words, (mfind? s.word_to_document_freqs w).isSome)
    (hminus : ∀ w ∈ q.minus_words, (mfind? s.word_to_document_freqs w).isSome) :
    MatchDocument s raw_query document_id =
      .ok ((if q.minus_words.any (fun w => wordOccurs s w document_id) then []
            else q.plus_words.filter (fun w => wordOccurs s w document_id)),
        (docDataAt s document_id).status) ∧
    (∀ w, wordOccurs s w document_id = true ↔ docFreqHas s document_id w) := by
  constructor
  · simp only [MatchDocument, hq]
    rw [if_pos hid]
    simp only [foldlM_matchPlusStep s document_id q.plus_words hplus,
      foldlM_matchMinusStep s document_id q.minus_words hminus, List.nil_append]
  · intro w
    have hiff := (Reach_Inv s hs).2.2.2.2 w document_id
    constructor
    · intro ho
      exact (hiff.mp ((idxHas_iff_getD _ _ _).mpr ho)).1
    · intro hdf
      exact (idxHas_iff_getD _ _ _).mp (hiff.mpr ⟨hdf, hid⟩)

theorem C2_match_document_witness :
    MatchDocument (AddDocument (SearchServer.mk [] [] [] []) 1 [99] .ACTUAL []).1
        [99] 1 =
      .ok ((if (Query.mk [[99]] []).minus_words.any
              (fun w => wordOccurs (AddDocument (SearchServer.mk [] [] [] []) 1 [99]
                .ACTUAL []).1 w 1) then []
            else (Query.mk [[99]] []).plus_words.filter
              (fun w => wordOccurs (AddDocument (SearchServer.mk [] [] [] []) 1 [99]
                .ACTUAL []).1 w 1)),
        (docDataAt (AddDocument (SearchServer.mk [] [] [] []) 1 [99] .ACTUAL []).1
          1).status) ∧
    (∀ w, wordOccurs (AddDocument (SearchServer.mk [] [] [] []) 1 [99] .ACTUAL []).1
        w 1 = true ↔
      docFreqHas (AddDocument (SearchServer.mk [] [] [] []) 1 [99] .ACTUAL []).1 1 w) :=
  C2_match_document (AddDocument (SearchServer.mk [] [] [] []) 1 [99] .ACTUAL []).1
    (Reach.add _ 1 [99] .ACTUAL [] (Reach.init [] _ rfl))
    [99] (Query.mk [[99]] []) rfl 1 (by decide)
    (by intro w hw; simp at hw; subst hw; rfl)
    (by intro w hw; simp at hw)

/-! ### C5 — result length and ordering -/

/-- The ordering the claim asserts of the returned list: adjacent results
have non-increasing relevance, and adjacent results whose relevances
differ by less than 1e-6 have non-increasing rating. -/
def sortedClaim (res : List Document) : Prop :=
  List.Chain' (fun a b => b.relevance ≤ a.relevance ∧
    (|a.relevance - b.relevance| < 1 / 1000000 → b.rating ≤ a.rating)) res

/-- Relevance-descending with rating-descending on exact relevance ties:
the total preorder the sort realizes when every near-tie is an exact
tie. -/
def docGE (a b : Document) : Prop :=
  b.relevance < a.relevance ∨ (a.relevance = b.relevance ∧ b.rating ≤ a.rating)

theorem docGE_trans (a b c : Document) (h1 : docGE a b) (h2 : docGE b c) :
    docGE a c := by
  rcases h1 with h1 | ⟨h1e, h1r⟩
  · rcases h2 with h2 | ⟨h2e, h2r⟩
    · exact Or.inl (lt_trans h2 h1)
    · exact Or.inl (by rw [← h2e]; exact h1)
  · rcases h2 with h2 | ⟨h2e, h2r⟩
    · exact Or.inl (by rw [h1e]; exact h2)
    · exact Or.inr ⟨h1e.trans h2e, le_trans h2r h1r⟩

theorem docGE_of_cmpDoc (a b : Document)
    (hnear : |a.relevance - b.relevance| < 1 / 1000000 → a.relevance = b.relevance)
    (h : cmpDoc a b) : docGE a b := by
  rcases h with ⟨hn, hr⟩ | h
  · exact Or.inr ⟨hnear hn, le_of_lt hr⟩
  · exact Or.inl h

theorem docGE_of_not_cmpDoc (a b : Document)
    (hnear : |a.relevance - b.relevance| < 1 / 1000000 → a.relevance = b.relevance)
    (h : ¬ cmpDoc a b) : docGE b a := by
  rw [cmpDoc] at h
  push_neg at h
  obtain ⟨h1, h2⟩ := h
  rcases lt_trichotomy a.relevance b.relevance with hlt | heq | hgt
  · exact Or.inl hlt
  · refine Or.inr ⟨heq.symm, ?_⟩
    refine h1 ?_
    rw [heq, sub_self, abs_zero]
    norm_num
  · exact absurd hgt (not_lt_of_ge h2)

theorem sorted_orderedInsert_docGE (x : Document) (l : List Document)
    (hH : ∀ a, (a = x ∨ a ∈ l) → ∀ b, (b = x ∨ b ∈ l) →
      |a.relevance - b.relevance| < 1 / 1000000 → a.relevance = b.relevance)
    (hs : List.Sorted docGE l) :
    List.Sorted docGE (List.orderedInsert cmpDoc x l) := by
  induction l with
  | nil => simp [List.orderedInsert]
  | cons y l2 ih =>
    rw [List.orderedInsert]
    have hs2 := List.sorted_cons.mp hs
    by_cases hc : cmpDoc x y
    · rw [if_pos hc]
      rw [List.sorted_cons]
      refine ⟨?_, hs⟩
      intro b hb
      have hxy := docGE_of_cmpDoc x y
        (hH x (Or.inl rfl) y (Or.inr (List.mem_cons_self _ _))) hc
      rcases List.mem_cons.mp hb with h1 | h1
      · rw [h1]
        exact hxy
      · exact docGE_trans x y b hxy (hs2.1 b h1)
    · rw [if_neg hc]
      rw [List.sorted_cons]
      have hH2 : ∀ a, (a = x ∨ a ∈ l2) → ∀ b, (b = x ∨ b ∈ l2) →
          |a.relevance - b.relevance| < 1 / 1000000 → a.relevance = b.relevance := by
        intro a ha b hb
        refine hH a ?_ b ?_
        · rcases ha with h | h
          · exact Or.inl h
          · exact Or.inr (List.mem_cons_of_mem _ h)
        · rcases hb with h | h
          · exact Or.inl h
          · exact Or.inr (List.mem_cons_of_mem _ h)
      refine ⟨?_, ih hH2 hs2.2⟩
      intro b hb
      rcases (List.mem_orderedInsert cmpDoc).mp hb with h1 | h1
      · rw [h1]
        exact docGE_of_not_cmpDoc x y
          (hH x (Or.inl rfl) y (Or.inr (List.mem_cons_self _ _))) hc
      · exact hs2.1 b h1

theorem sorted_insertionSort_docGE (l : List Document)
    (hH : ∀ a ∈ l, ∀ b ∈ l,
      |a.relevance - b.relevance| < 1 / 1000000 → a.relevance = b.relevance) :
    List.Sorted docGE (List.insertionSort cmpDoc l) := by
  induction l with
  | nil => simp
  | cons x l ih =>
    rw [List.insertionSort]
    refine sorted_orderedInsert_docGE x (List.insertionSort cmpDoc l) ?_
      (ih (fun a ha b hb => hH a (List.mem_cons_of_mem _ ha) b
        (List.mem_cons_of_mem _ hb)))
    intro a ha b hb
    have hmem : ∀ c, (c = x ∨ c ∈ List.insertionSort cmpDoc l) → c ∈ x :: l := by
      intro c hc
      rcases hc with h | h
      · rw [h]
        exact List.mem_cons_self _ _
      · exact List.mem_cons_of_mem _ ((List.perm_insertionSort cmpDoc l).subset h)
    exact hH a (hmem a ha) b (hmem b hb)

theorem sortedClaim_of_pairwise (l : List Document)
    (hp : List.Pairwise docGE l)
    (hH : ∀ a ∈ l, ∀ b ∈ l,
      |a.relevance - b.relevance| < 1 / 1000000 → a.relevance = b.relevance) :
    sortedClaim l := by
  induction l with
  | nil => simp [sortedClaim]
  | cons a l ih =>
    rw [List.pairwise_cons] at hp
    cases l with
    | nil => simp [sortedClaim]
    | cons b l2 =>
      rw [sortedClaim, List.chain'_cons]
      constructor
      · have hab := hp.1 b (List.mem_cons_self _ _)
        constructor
        · rcases hab with h | ⟨he, _⟩
          · exact le_of_lt h
          · exact le_of_eq he.symm
        · intro hnear
          have heq := hH a (List.mem_cons_self _ _) b
            (List.mem_cons_of_mem _ (List.mem_cons_self _ _)) hnear
          rcases hab with h | ⟨_, hr⟩
          · rw [heq] at h
            exact absurd h (lt_irrefl _)
          · exact hr
      · exact ih hp.2 (fun x hx y hy => hH x (List.mem_cons_of_mem _ hx) y
          (List.mem_cons_of_mem _ hy))

/-- C5 (amended): the result of `FindTopDocuments` always has length at
most 5; and whenever all candidate results' relevances are pairwise
either equal or at least 1e-6 apart, the result is sorted by descending
relevance with descending rating on adjacent near-ties.  (Without that
separation hypothesis the comparator is not a strict weak ordering and
the ordering property fails, see the counterexample.) -/
theorem C5_top_documents (logQ : ℚ → ℚ) (s : SearchServer) (raw_query : Str)
    (pred : ℤ → DocumentStatus → ℤ → Bool) (q : Query) (res : List Document)
    (hq : ParseQuery s raw_query = .ok q)
    (hres : FindTopDocuments logQ s raw_query pred = .ok res) :
    res.length ≤ 5 ∧
    ((∀ a ∈ FindAllDocuments logQ s q pred,
        ∀ b ∈ FindAllDocuments logQ s q pred,
        |a.relevance - b.relevance| < 1 / 1000000 → a.relevance = b.relevance) →
      sortedClaim res) := by
  rw [FindTopDocuments, hq] at hres
  have hres2 : res = (sortDocs (FindAllDocuments logQ s q pred)).take
      MAX_RESULT_DOCUMENT_COUNT := (Except.ok.inj hres).symm
  constructor
  · rw [hres2, List.length_take]
    exact min_le_left _ _
  · intro hsep
    have hsorted : List.Sorted docGE (sortDocs (FindAllDocuments logQ s q pred)) :=
      sorted_insertionSort_docGE _ hsep
    have hpair : List.Pairwise docGE res := by
      rw [hres2]
      exact List.Pairwise.sublist (List.take_sublist _ _) hsorted
    refine sortedClaim_of_pairwise res hpair ?_
    intro a ha b hb
    have hsuba : a ∈ FindAllDocuments logQ s q pred :=
      (sortDocs_perm _).subset (List.take_subset _ _ (hres2 ▸ ha))
    have hsubb : b ∈ FindAllDocuments logQ s q pred :=
      (sortDocs_perm _).subset (List.take_subset _ _ (hres2 ▸ hb))
    exact hsep a hsuba b hsubb

/-- Two documents driving the comparator outside its strict-weak-order
region: relevances 1e-6 and 5e-7 differ by less than 1e-6 while the
lower-relevance document has the higher rating. -/
def srvC5 : SearchServer :=
  (AddDocument (AddDocument (SearchServer.mk [] [] [] []) 0 [120] .ACTUAL []).1
    1 [121, 32, 122] .ACTUAL [1]).1

/-- C5 counterexample: with the abstracted log taking value 1e-6, the
engine returns two documents whose relevances differ by 5e-7 (below the
1e-6 tie threshold) with ratings in ascending order, violating the
claimed ordering; the comparator is not a strict weak ordering on such
inputs. -/
theorem C5_sort_counterexample :
    FindTopDocumentsDefault (fun _ => 1 / 1000000) srvC5 [120, 32, 121] =
      .ok [⟨0, 1 / 1000000, 0⟩, ⟨1, 1 / 2000000, 1⟩] ∧
    ¬ sortedClaim [⟨0, 1 / 1000000, 0⟩, ⟨1, 1 / 2000000, 1⟩] := by
  have hq : ParseQuery srvC5 [120, 32, 121] = .ok ⟨[[120], [121]], []⟩ := rfl
  constructor
  · simp only [FindTopDocumentsDefault, FindTopDocumentsByStatus, FindTopDocuments, hq]
    have hall : FindAllDocuments (fun _ => 1 / 1000000) srvC5 ⟨[[120], [121]], []⟩
        (fun _ document_status _ => document_status = DocumentStatus.ACTUAL) =
        [⟨0, 1 / 1000000, 0⟩, ⟨1, 1 / 2000000, 1⟩] := by
      norm_num [FindAllDocuments, plusWordStep, minusWordStep, cmBuildOrdinaryMap,
        srvC5, AddDocument, SplitIntoWordsNoStop, filterWordsNoStop, SplitIntoWords,
        IsValidWord, IsStopWord, ComputeAverageRating, idxAddTo, maddTo, mset,
        mfind?, sinsert, cmAddToValue, ComputeWordInverseDocumentFreq,
        GetDocumentCount, docDataAt, List.foldl]
    rw [hall]
    have hcmp : cmpDoc (⟨0, 1 / 1000000, 0⟩ : Document) ⟨1, 1 / 2000000, 1⟩ := by
      rw [cmpDoc]
      right
      norm_num
    have hsort : sortDocs [(⟨0, 1 / 1000000, 0⟩ : Document), ⟨1, 1 / 2000000, 1⟩] =
        [⟨0, 1 / 1000000, 0⟩, ⟨1, 1 / 2000000, 1⟩] := by
      rw [sortDocs, List.insertionSort, List.insertionSort, List.insertionSort,
        List.orderedInsert, List.orderedInsert, if_pos hcmp]
    rw [hsort]
    rfl
  · rw [sortedClaim]
    intro h
    have h2 := (List.chain'_cons.mp h).1
    have h3 := h2.2 (by
      rw [show (⟨0, 1 / 1000000, 0⟩ : Document).relevance -
        (⟨1, 1 / 2000000, 1⟩ : Document).relevance = 1 / 2000000 by norm_num]
      rw [abs_of_pos (by norm_num)]
      norm_num)
    norm_num at h3

theorem C5_top_documents_witness :
    ∃ res, FindTopDocuments (fun _ => 1) srvC5 [120, 32, 121] (fun _ _ _ => true)
      = .ok res ∧ res.length ≤ 5 ∧ sortedClaim res := by
  have hq : ParseQuery srvC5 [120, 32, 121] = .ok ⟨[[120], [121]], []⟩ := rfl
  have hall : FindAllDocuments (fun _ => 1) srvC5 ⟨[[120], [121]], []⟩
      (fun _ _ _ => true) = [⟨0, 1, 0⟩, ⟨1, 1 / 2, 1⟩] := by
    norm_num [FindAllDocuments, plusWordStep, minusWordStep, cmBuildOrdinaryMap,
      srvC5, AddDocument, SplitIntoWordsNoStop, filterWordsNoStop, SplitIntoWords,
      IsValidWord, IsStopWord, ComputeAverageRating, idxAddTo, maddTo, mset,
      mfind?, sinsert, cmAddToValue, ComputeWordInverseDocumentFreq,
      GetDocumentCount, docDataAt, List.foldl]
  have hres : FindTopDocuments (fun _ => 1) srvC5 [120, 32, 121] (fun _ _ _ => true)
      = .ok ((sortDocs (FindAllDocuments (fun _ => 1) srvC5 ⟨[[120], [121]], []⟩
        (fun _ _ _ => true))).take MAX_RESULT_DOCUMENT_COUNT) := by
    simp only [FindTopDocuments, hq]
  have hmain := C5_top_documents (fun _ => 1) srvC5 [120, 32, 121] (fun _ _ _ => true)
    ⟨[[120], [121]], []⟩ _ hq hres
  refine ⟨_, hres, hmain.1, hmain.2 ?_⟩
  rw [hall]
  intro a ha b hb hd
  fin_cases ha <;> fin_cases hb <;> rw [abs_sub_lt_iff] at hd <;> norm_num at hd ⊢
